import Mathlib

/-!
# un-utf8: code point table and UTF-8 sequence decoder

A shallow embedding of `codepoints.c` and `un-utf8.c`.

* C `unsigned int` values are natural numbers; every value the program forms
  stays far below `2 ^ 32` (bytes, masked bytes and shifts of at most 18 bits
  of a 4-bit value), so no wrap-around takes place.
* C `int` indices of the table search are natural numbers (they are never
  negative and their sums stay below `2 ^ 31` for any table that fits in
  memory); the global `location` is an integer.
* `fgetc` reads from a list of bytes; at the end of the list it returns `EOF`,
  which, stored in an `unsigned int`, is `0xFFFFFFFF`.
* `printf` and `fprintf(stderr, ...)` append one `Event` to the output, in
  program order.
* `loadTable` is run on the code points that `fscanf` delivers; of the array
  it fills the model keeps the slots written so far, with `length` and
  `capacity` as the program counts them.  The C library function `qsort` is a
  parameter, constrained by what the library promises of it.
-/

namespace UnUtf8

/-! ## codepoints.c -/

/-- A code point of the table: `struct CodePointTag`. -/
structure CodePoint where
  code : Nat
  description : String
  deriving DecidableEq, Repr

/-- What one call of `reportTable` does.  `found d`: the line `d` is printed
and `true` is returned.  `notFound`: nothing is printed, `false` is returned.
`outOfBounds`: `list->codepoints[i]` was read with `i` outside `0 .. length-1`
(undefined behaviour in C).  `diverges`: the search loop did not finish within
the number of iterations it was given. -/
inductive LookupResult where
  | found (description : String)
  | notFound
  | outOfBounds
  | diverges
  deriving DecidableEq, Repr

/-- The `while` loop of `reportTable`, entered with the current values of
`list_begin`, `list_end` and `list_mid_pt`; the first argument bounds the
number of evaluations of the loop condition. -/
def reportTableLoop (list : List CodePoint) (code : Nat) :
    Nat → Nat → Nat → Nat → LookupResult
  | 0, _, _, _ => LookupResult.diverges
  | fuel + 1, list_begin, list_end, list_mid_pt =>
    match list[list_mid_pt]? with
    | none => LookupResult.outOfBounds
    | some p =>
      if code ≠ p.code then
        if code > p.code then
          let list_begin := list_mid_pt
          let temp := (list_begin + list_end) / 2
          if list_mid_pt = temp then LookupResult.notFound
          else reportTableLoop list code fuel list_begin list_end ((list_begin + list_end) / 2)
        else if code < p.code then
          let list_end := list_mid_pt
          let temp := (list_begin + list_end) / 2
          if list_mid_pt = temp then LookupResult.notFound
          else reportTableLoop list code fuel list_begin list_end ((list_begin + list_end) / 2)
        else reportTableLoop list code fuel list_begin list_end list_mid_pt
      else LookupResult.found p.description

/-- The function `reportTable`: binary search of the table for `code`.  The loop
is given `length + 1` iterations, which `reportTableLoop_fuel` shows to be
enough on every non-empty table. -/
def reportTable (list : List CodePoint) (code : Nat) : LookupResult :=
  let list_begin := 0
  let list_end := list.length
  let list_mid_pt := (list_begin + list_end) / 2
  reportTableLoop list code (list.length + 1) list_begin list_end list_mid_pt

/-! ## un-utf8.c -/

abbrev THREE_BYTES : Int := 3
abbrev FOUR_BYTES : Int := 4
abbrev SIG_BITS_FOUR_BYTES : Nat := 16
abbrev SIG_BITS_THREE_BYTES : Nat := 11
abbrev SIG_BITS_TWO_BYTES : Nat := 7
abbrev EMPTY_BIN : Nat := 0x000000
abbrev MULTI_BYTE_MASK : Nat := 0x80
abbrev FOURTH_BYTE_MASK : Nat := 0x0F
abbrev CONSEC_BYTE_MASK : Nat := 0x3F
abbrev TWO_BYTE_MASK : Nat := 0x1F
abbrev FOUR_BYTE_CHAR_MASK : Nat := 0xF0
abbrev THREE_BYTE_CHAR_MASK : Nat := 0xE0
abbrev TWO_BYTE_CHAR_MASK : Nat := 0xC0
abbrev ONE_BYTE_CHAR_MASK : Nat := 0x00

/-- The value of `EOF` (that is `-1`) once converted to `unsigned int`, the
type of every variable that receives the result of `fgetc`. -/
abbrev EOF : Nat := 0xFFFFFFFF

/-- One line of output.  `name` is a line of standard output (printed by
`reportTable`), the next four are the diagnostics written to standard error,
with the values of their format arguments.  `undefined` marks the point at
which `reportTable` read outside the table or did not return: the behaviour
of the C program is undefined from there on and the model stops. -/
inductive Event where
  | name (description : String)
  | invalidEncoding (hex : Nat) (offset : Int)
  | unknownCode (hex : Nat) (offset : Int)
  | invalidByte (byte : Nat) (offset : Int)
  | incompleteCode (offset : Int)
  | undefined
  deriving DecidableEq, Repr

/-- The state the decoder works on: the bytes of the input file not yet read,
the global `location`, the lines written so far, and (as a record of the
calls made) the arguments `reportTable` has been called with so far. -/
structure Io where
  input : List (Fin 256)
  location : Int
  out : List Event
  lookups : List Nat
  deriving DecidableEq, Repr

/-- The call `fgetc(input)`, its result stored in an `unsigned int`. -/
def fgetc (s : Io) : Nat × Io :=
  match s.input with
  | [] => (EOF, s)
  | b :: rest => (b.val, { s with input := rest })

/-- The statement `location++`. -/
def Io.incr (s : Io) : Io := { s with location := s.location + 1 }

/-- One `printf` or `fprintf(stderr, ...)`. -/
def Io.emit (s : Io) (e : Event) : Io := { s with out := s.out ++ [e] }

/-- The function `checkTwoByteEncoding`. -/
def checkTwoByteEncoding (hex : Nat) : Bool :=
  let temp := hex
  let temp := temp >>> SIG_BITS_TWO_BYTES
  let temp := temp <<< SIG_BITS_TWO_BYTES
  if (temp ||| EMPTY_BIN) = EMPTY_BIN then false
  else true

/-- The function `checkThreeByteEncoding`. -/
def checkThreeByteEncoding (hex : Nat) : Bool :=
  let temp := hex
  let temp := temp >>> SIG_BITS_THREE_BYTES
  let temp := temp <<< SIG_BITS_THREE_BYTES
  if (temp ||| EMPTY_BIN) = EMPTY_BIN then false
  else
    let temp := hex
    let temp := temp >>> SIG_BITS_TWO_BYTES
    let temp := temp <<< SIG_BITS_TWO_BYTES
    if (temp ||| EMPTY_BIN) = EMPTY_BIN then false
    else true

/-- The function `checkFourByteEncoding`. -/
def checkFourByteEncoding (hex : Nat) : Bool :=
  let temp := hex
  let temp := temp >>> SIG_BITS_FOUR_BYTES
  let temp := temp <<< SIG_BITS_FOUR_BYTES
  if (temp ||| EMPTY_BIN) = EMPTY_BIN then false
  else
    let temp := hex
    let temp := temp >>> SIG_BITS_THREE_BYTES
    let temp := temp <<< SIG_BITS_THREE_BYTES
    if (temp ||| EMPTY_BIN) = EMPTY_BIN then false
    else
      let temp := hex
      let temp := temp >>> SIG_BITS_TWO_BYTES
      let temp := temp <<< SIG_BITS_TWO_BYTES
      if (temp ||| EMPTY_BIN) = EMPTY_BIN then false
      else true

/-- The statement `if (!reportTable(hex)) fprintf(stderr, "Unknown code: ...", hex, offset);`
shared by the four places that look a code up.  The argument is recorded in
`lookups`.  The flag is `true` when `reportTable` returned; it is `false`, and
the event `undefined` is recorded, when the search left the table. -/
def lookupOrUnknown (table : List CodePoint) (hex : Nat) (offset : Int) (s : Io) : Bool × Io :=
  let s := { s with lookups := s.lookups ++ [hex] }
  match reportTable table hex with
  | LookupResult.found d => (true, s.emit (Event.name d))
  | LookupResult.notFound => (true, s.emit (Event.unknownCode hex offset))
  | LookupResult.outOfBounds => (false, s.emit Event.undefined)
  | LookupResult.diverges => (false, s.emit Event.undefined)

/-- The function `fourBytes`; the flag returned is its return value (`false`
makes `main` leave its loop). -/
def fourBytes (table : List CodePoint) (code : Nat) (s : Io) : Bool × Io :=
  let s := s.incr
  let r2 := fgetc s
  let bit2 := r2.1
  let s := r2.2.incr
  if bit2 ≠ EOF then
    if bit2 &&& MULTI_BYTE_MASK = MULTI_BYTE_MASK then
      let r3 := fgetc s
      let bit3 := r3.1
      let s := r3.2.incr
      if bit3 ≠ EOF then
        if bit3 &&& MULTI_BYTE_MASK = MULTI_BYTE_MASK then
          let r4 := fgetc s
          let bit4 := r4.1
          let s := r4.2.incr
          if bit4 ≠ EOF then
            if bit4 &&& MULTI_BYTE_MASK = MULTI_BYTE_MASK then
              let code := code &&& FOURTH_BYTE_MASK
              let bit2 := bit2 &&& CONSEC_BYTE_MASK
              let bit3 := bit3 &&& CONSEC_BYTE_MASK
              let bit4 := bit4 &&& CONSEC_BYTE_MASK
              let hex := (code <<< (SIG_BITS_TWO_BYTES - 1)) ||| bit2
              let hex := hex <<< (SIG_BITS_TWO_BYTES - 1)
              let hex := hex ||| bit3
              let hex := hex <<< (SIG_BITS_TWO_BYTES - 1)
              let hex := hex ||| bit4
              if !checkFourByteEncoding hex then
                (true, s.emit (Event.invalidEncoding hex (s.location - FOUR_BYTES)))
              else lookupOrUnknown table hex (s.location - FOUR_BYTES) s
            else (true, s.emit (Event.invalidByte bit4 (s.location - 1)))
          else (false, s.emit (Event.incompleteCode (s.location - FOUR_BYTES)))
        else
          let s := s.emit (Event.invalidByte bit3 (s.location - 1))
          let s := (fgetc s).2
          let s := s.incr
          (true, s)
      else (false, s.emit (Event.incompleteCode (s.location - THREE_BYTES)))
    else
      let s := s.emit (Event.invalidByte bit2 (s.location - 1))
      let s := (fgetc s).2
      let s := s.incr
      let s := (fgetc s).2
      let s := s.incr
      (true, s)
  else (false, s.emit (Event.incompleteCode (s.location - 2)))

/-- The function `threeBytes`. -/
def threeBytes (table : List CodePoint) (code : Nat) (s : Io) : Bool × Io :=
  let s := s.incr
  let r2 := fgetc s
  let bit2 := r2.1
  let s := r2.2.incr
  if bit2 ≠ EOF then
    if bit2 &&& MULTI_BYTE_MASK = MULTI_BYTE_MASK then
      let r3 := fgetc s
      let bit3 := r3.1
      let s := r3.2.incr
      if bit3 ≠ EOF then
        if bit3 &&& MULTI_BYTE_MASK = MULTI_BYTE_MASK then
          let code := code &&& FOURTH_BYTE_MASK
          let bit2 := bit2 &&& CONSEC_BYTE_MASK
          let bit3 := bit3 &&& CONSEC_BYTE_MASK
          let hex := (code <<< (SIG_BITS_TWO_BYTES - 1)) ||| bit2
          let hex := hex <<< (SIG_BITS_TWO_BYTES - 1)
          let hex := hex ||| bit3
          if !checkThreeByteEncoding hex then
            (true, s.emit (Event.invalidEncoding hex (s.location - THREE_BYTES)))
          else lookupOrUnknown table hex (s.location - THREE_BYTES) s
        else (true, s.emit (Event.invalidByte bit3 (s.location - 1)))
      else (false, s.emit (Event.incompleteCode (s.location - THREE_BYTES)))
    else
      let s := s.emit (Event.invalidByte bit2 (s.location - 1))
      let s := (fgetc s).2
      let s := s.incr
      (true, s)
  else (false, s.emit (Event.incompleteCode (s.location - 2)))

/-- The function `twoBytes`. -/
def twoBytes (table : List CodePoint) (code : Nat) (s : Io) : Bool × Io :=
  let s := s.incr
  let r2 := fgetc s
  let bit2 := r2.1
  let s := r2.2.incr
  if bit2 ≠ EOF then
    if bit2 &&& MULTI_BYTE_MASK = MULTI_BYTE_MASK then
      let code := code &&& TWO_BYTE_MASK
      let bit2 := bit2 &&& CONSEC_BYTE_MASK
      let hex := (code <<< (SIG_BITS_TWO_BYTES - 1)) ||| bit2
      if !checkTwoByteEncoding hex then
        (true, s.emit (Event.invalidEncoding hex (s.location - 2)))
      else lookupOrUnknown table hex (s.location - 2) s
    else (true, s.emit (Event.invalidByte bit2 (s.location - 1)))
  else (false, s.emit (Event.incompleteCode (s.location - 2)))

/-- The branch of the `if` chain in the loop of `main` that a byte is sent to. -/
inductive LeadClass where
  | fourByte
  | threeByte
  | twoByte
  | oneByte
  | invalid
  deriving DecidableEq, Repr

/-- The conditions of the `if` chain in the loop of `main`, in its order. -/
def classify (code : Nat) : LeadClass :=
  if code &&& FOUR_BYTE_CHAR_MASK = FOUR_BYTE_CHAR_MASK then LeadClass.fourByte
  else if code &&& THREE_BYTE_CHAR_MASK = THREE_BYTE_CHAR_MASK then LeadClass.threeByte
  else if code &&& TWO_BYTE_CHAR_MASK = TWO_BYTE_CHAR_MASK then LeadClass.twoByte
  else if code &&& MULTI_BYTE_MASK = ONE_BYTE_CHAR_MASK then LeadClass.oneByte
  else LeadClass.invalid

/-- The number of continuation bytes a lead byte of each class announces: the
number of bytes the handler of the class reads after the lead byte when none
is missing or rejected (three `fgetc` in `fourBytes`, two in `threeBytes`, one
in `twoBytes`, none in the single-byte branch of `main`); the last branch of
`main` rejects the byte, which announces nothing. -/
def LeadClass.continuationBytes : LeadClass → Option Nat
  | LeadClass.fourByte => some 3
  | LeadClass.threeByte => some 2
  | LeadClass.twoByte => some 1
  | LeadClass.oneByte => some 0
  | LeadClass.invalid => none

/-- The body of the `while` loop of `main` up to, and without, the final
`code = fgetc(input)`.  The flag is `false` when the loop is left by `break`. -/
def loopBody (table : List CodePoint) (code : Nat) (s : Io) : Bool × Io :=
  match classify code with
  | LeadClass.fourByte => fourBytes table code s
  | LeadClass.threeByte => threeBytes table code s
  | LeadClass.twoByte => twoBytes table code s
  | LeadClass.oneByte =>
    let r := lookupOrUnknown table code s.location s
    (r.1, r.2.incr)
  | LeadClass.invalid =>
    let s := s.emit (Event.invalidByte code s.location)
    (true, s.incr)

/-- The `while (code != EOF)` loop of `main`; the first argument bounds the
number of evaluations of the loop condition, and `none` means the bound was
reached. -/
def mainLoop (table : List CodePoint) : Nat → Nat → Io → Option Io
  | 0, _, _ => none
  | fuel + 1, code, s =>
    if code ≠ EOF then
      let r := loopBody table code s
      if r.1 then
        let g := fgetc r.2
        mainLoop table fuel g.1 g.2
      else some r.2
    else some s

/-- The state in which `main` starts to read the input file. -/
def initial (input : List (Fin 256)) : Io :=
  { input := input, location := 0, out := [], lookups := [] }

/-- The function `main` from the first `fgetc` on, for the table `loadTable` has
built and the bytes of the input file.  The loop is given `length + 1`
iterations, which `main_terminates` shows to be enough. -/
def main (table : List CodePoint) (input : List (Fin 256)) : Option Io :=
  let g := fgetc (initial input)
  mainLoop table (input.length + 1) g.1 g.2

/-- The value of `code` and the state at the `n`-th evaluation (counted from
zero) of the condition of the `while` loop of `main`; `none` when the loop has
been left before. -/
def loopHead (table : List CodePoint) (input : List (Fin 256)) : Nat → Option (Nat × Io)
  | 0 => some (fgetc (initial input))
  | n + 1 =>
    match loopHead table input n with
    | none => none
    | some (code, s) =>
      if code ≠ EOF then
        let r := loopBody table code s
        if r.1 then some (fgetc r.2) else none
      else none

/-- The table of the example of the specification. -/
def exampleTable : List CodePoint :=
  [⟨0x41, "LATIN CAPITAL LETTER A"⟩, ⟨0xE9, "LATIN SMALL LETTER E WITH ACUTE"⟩]

/-- The decoder is awaiting a lead byte at offset `k` of the input: at some
evaluation of the loop condition of `main`, `code` holds the byte at offset `k`
and the bytes after offset `k` are the unread ones; `s` is the state there. -/
def AwaitingLead (table : List CodePoint) (input : List (Fin 256)) (k : Nat) (code : Nat)
    (s : Io) : Prop :=
  ∃ (n : Nat) (b : Fin 256),
    loopHead table input n = some (code, s) ∧ code = b.val ∧ input.drop k = b :: s.input

/-- The shortest UTF-8 form of a value from `0x80` to `0x1FFFFF`, as the
specification describes it: two bytes below `0x800`, three bytes below
`0x10000`, four bytes otherwise; the lead byte carries the class marker and
the high bits, each continuation byte the marker `10` and six bits. -/
def utf8Encode (v : Nat) : List (Fin 256) :=
  if v < 0x800 then
    [Fin.ofNat (0xC0 + v / 0x40), Fin.ofNat (0x80 + v % 0x40)]
  else if v < 0x10000 then
    [Fin.ofNat (0xE0 + v / 0x1000), Fin.ofNat (0x80 + v / 0x40 % 0x40),
      Fin.ofNat (0x80 + v % 0x40)]
  else
    [Fin.ofNat (0xF0 + v / 0x40000), Fin.ofNat (0x80 + v / 0x1000 % 0x40),
      Fin.ofNat (0x80 + v / 0x40 % 0x40), Fin.ofNat (0x80 + v % 0x40)]

/-- The value a multi-byte sequence stands for, as the specification describes
it: the low 5 bits of the lead byte when one continuation byte follows, the low
4 bits when two follow, the low 3 bits when three follow, followed, most
significant first, by the low 6 bits of each continuation byte. -/
def reconstructed (lead : Fin 256) (conts : List (Fin 256)) : Nat :=
  conts.foldl (fun acc c => acc * 64 + c.val % 64) (lead.val % 2 ^ (6 - conts.length))

/-- A structurally valid sequence, as the specification describes it: a lead
byte `110xxxxx` with one continuation byte, `1110xxxx` with two or `11110xxx`
with three, every continuation byte of the pattern `10xxxxxx`. -/
def StructurallyValid (lead : Fin 256) (conts : List (Fin 256)) : Prop :=
  ((conts.length = 1 ∧ 0xC0 ≤ lead.val ∧ lead.val ≤ 0xDF) ∨
   (conts.length = 2 ∧ 0xE0 ≤ lead.val ∧ lead.val ≤ 0xEF) ∨
   (conts.length = 3 ∧ 0xF0 ≤ lead.val ∧ lead.val ≤ 0xF7)) ∧
  ∀ c ∈ conts, 0x80 ≤ c.val ∧ c.val ≤ 0xBF

instance (lead : Fin 256) (conts : List (Fin 256)) : Decidable (StructurallyValid lead conts) := by
  unfold StructurallyValid
  infer_instance

/-- The least value that needs a sequence with `n` continuation bytes: every
value below it fits a shorter encoding. -/
def shorterLimit (n : Nat) : Nat :=
  if n = 1 then 0x80 else if n = 2 then 0x800 else 0x10000

/-- A table that has an entry for code 0. -/
def tableWithZero : List CodePoint :=
  [⟨0x00, "NULL"⟩, ⟨0x41, "LATIN CAPITAL LETTER A"⟩]

/-! ## codepoints.c: building the table -/

abbrev INIT_CAP : Nat := 5

/-- The function `comparator`, on the two code points its arguments point to. -/
def comparator (point1 point2 : CodePoint) : Int :=
  let l := point1.code
  let r := point2.code
  if l < r then -1
  else if l > r then 1
  else 0

/-- The struct `CodePointList`.  Of the array `codepoints` the model keeps the
slots `0 .. length - 1`, the ones written so far, in index order; `capacity` is
the number of slots allocated. -/
structure CodePointList where
  codepoints : List CodePoint
  length : Nat
  capacity : Nat
  deriving DecidableEq, Repr

/-- The list as `loadTable` initialises it: no entry, room for `INIT_CAP`. -/
def emptyList : CodePointList :=
  { codepoints := [], length := 0, capacity := INIT_CAP }

/-- The `if (list->length >= (list->capacity - 1))` statement of the loop of
`loadTable`: the capacity is doubled (and the array reallocated to it). -/
def grow (list : CodePointList) : CodePointList :=
  if (list.length : Int) ≥ (list.capacity : Int) - 1 then
    { list with capacity := list.capacity * 2 }
  else list

/-- The statement `list->codepoints[list->length++] = c`: slot `length` is
written, and `length` is incremented. -/
def store (list : CodePointList) (c : CodePoint) : CodePointList :=
  { list with codepoints := list.codepoints ++ [c], length := list.length + 1 }

/-- The `while` loop of `loadTable`, run on the code points that the
successive calls of `fscanf` deliver. -/
def loadTableLoop (list : CodePointList) : List CodePoint → CodePointList
  | [] => list
  | c :: rest => loadTableLoop (store (grow list) c) rest

/-- The function `loadTable`, for the code points parsed from `unicode.txt`.
The C library function `qsort` is a parameter: it is applied to the first
`length` slots of the array, with `comparator`. -/
def loadTable (qsort : List CodePoint → List CodePoint) (parsed : List CodePoint) :
    CodePointList :=
  let list := loadTableLoop emptyList parsed
  { list with codepoints := qsort list.codepoints }

/-- What the C library promises of `qsort` called with `comparator`: the array
holds the same elements afterwards, in an order in which `comparator` puts
no element after a later one. -/
def SortsByComparator (qsort : List CodePoint → List CodePoint) : Prop :=
  ∀ l : List CodePoint,
    (qsort l).Perm l ∧ (qsort l).Pairwise (fun p q => comparator p q ≤ 0)

/-- One function that keeps the promise of `qsort`: insertion sort by
`comparator`. -/
def insertionQsort (l : List CodePoint) : List CodePoint :=
  l.insertionSort (fun p q => comparator p q ≤ 0)

/-- A diagnostic written for the sequence whose lead byte is at index `k` of
the input carries the right offset: `k` for "Invalid encoding", "Unknown code"
and "Incomplete code"; for "Invalid byte" the index, not before `k`, at which
the input holds the byte reported. -/
def Event.accurateAt (input : List (Fin 256)) (k : Nat) : Event → Prop
  | Event.name _ => True
  | Event.invalidEncoding _ offset => offset = (k : Int)
  | Event.unknownCode _ offset => offset = (k : Int)
  | Event.invalidByte byte offset =>
    (k : Int) ≤ offset ∧ (input[offset.toNat]?).map Fin.val = some byte
  | Event.incompleteCode offset => offset = (k : Int)
  | Event.undefined => True

/-- The value the handlers form from a lead byte and its continuation bytes:
the lead byte masked with `TWO_BYTE_MASK` (5 bits) in `twoBytes` and with
`FOURTH_BYTE_MASK` (4 bits) in `threeBytes` and `fourBytes`, then, for each
continuation byte in turn, a shift by 6 and the byte masked with
`CONSEC_BYTE_MASK` (6 bits). -/
def decoded (lead : Nat) (conts : List (Fin 256)) : Nat :=
  conts.foldl (fun acc c => acc * 64 + c.val % 64)
    (lead % (if conts.length = 1 then 32 else 16))

/-! ## The table search -/

/-- Codes strictly ascending along the table: sorted ascending by code, with
pairwise distinct codes. -/
theorem strictly_ascending (list : List CodePoint)
    (hsorted : list.Pairwise (fun p q => p.code ≤ q.code))
    (hdistinct : (list.map CodePoint.code).Nodup) :
    list.Pairwise (fun p q => p.code < q.code) := by
  rw [List.pairwise_iff_getElem] at hsorted ⊢
  intro i j hi hj hij
  have hle := hsorted i j hi hj hij
  rcases Nat.lt_or_eq_of_le hle with h | h
  · exact h
  · exfalso
    have hinj := List.nodup_iff_injective_getElem.mp hdistinct
    have hi2 : i < (list.map CodePoint.code).length := by simpa using hi
    have hj2 : j < (list.map CodePoint.code).length := by simpa using hj
    have := @hinj ⟨i, hi2⟩ ⟨j, hj2⟩ (by simpa using h)
    have : i = j := by simpa using this
    omega

theorem reportTableLoop_found (list : List CodePoint)
    (hs : list.Pairwise (fun p q => p.code < q.code)) (i : Nat) (hi : i < list.length) :
    ∀ fuel b e, b ≤ i → i < e → e ≤ list.length → e - b < fuel →
      reportTableLoop list (list[i]).code fuel b e ((b + e) / 2)
        = LookupResult.found (list[i]).description := by
  rw [List.pairwise_iff_getElem] at hs
  intro fuel
  induction fuel with
  | zero => intro b e _ _ _ h; omega
  | succ fuel ih =>
    intro b e hb he hlen hfuel
    have hm1 : b ≤ (b + e) / 2 := by omega
    have hm2 : (b + e) / 2 < e := by omega
    have hm3 : (b + e) / 2 < list.length := by omega
    unfold reportTableLoop
    rw [List.getElem?_eq_getElem hm3]
    simp only
    rcases Nat.lt_trichotomy ((b + e) / 2) i with hlt | heq | hgt
    · have hc := hs _ _ hm3 hi hlt
      have hne : (list[i]).code ≠ (list[(b + e) / 2]).code := by omega
      rw [if_pos hne, if_pos (show (list[i]).code > (list[(b + e) / 2]).code from hc)]
      have hstep : ¬ ((b + e) / 2 = ((b + e) / 2 + e) / 2) := by omega
      rw [if_neg hstep]
      exact ih _ _ (by omega) he hlen (by omega)
    · subst heq
      simp
    · have hc := hs _ _ hi hm3 hgt
      have hne : (list[i]).code ≠ (list[(b + e) / 2]).code := by omega
      have hngt : ¬ ((list[i]).code > (list[(b + e) / 2]).code) := by omega
      rw [if_pos hne, if_neg hngt, if_pos (show (list[i]).code < (list[(b + e) / 2]).code from hc)]
      have hstep : ¬ ((b + e) / 2 = (b + (b + e) / 2) / 2) := by omega
      rw [if_neg hstep]
      exact ih _ _ hb (by omega) (by omega) (by omega)

theorem reportTableLoop_notFound (list : List CodePoint) (code : Nat)
    (habsent : ∀ p ∈ list, p.code ≠ code) :
    ∀ fuel b e, b < e → e ≤ list.length → e - b < fuel →
      reportTableLoop list code fuel b e ((b + e) / 2) = LookupResult.notFound := by
  intro fuel
  induction fuel with
  | zero => intro b e _ _ h; omega
  | succ fuel ih =>
    intro b e hbe hlen hfuel
    have hm3 : (b + e) / 2 < list.length := by omega
    unfold reportTableLoop
    rw [List.getElem?_eq_getElem hm3]
    simp only
    have hne : code ≠ (list[(b + e) / 2]).code :=
      fun h => habsent _ (List.getElem_mem hm3) h.symm
    rw [if_pos hne]
    by_cases hgt : code > (list[(b + e) / 2]).code
    · rw [if_pos hgt]
      by_cases hstep : (b + e) / 2 = ((b + e) / 2 + e) / 2
      · rw [if_pos hstep]
      · rw [if_neg hstep]
        exact ih _ _ (by omega) hlen (by omega)
    · have hlt : code < (list[(b + e) / 2]).code := by omega
      rw [if_neg hgt, if_pos hlt]
      by_cases hstep : (b + e) / 2 = (b + (b + e) / 2) / 2
      · rw [if_pos hstep]
      · rw [if_neg hstep]
        exact ih _ _ (by omega) (by omega) (by omega)

/-- On a non-empty window of a table, `length + 1` iterations are enough for the
search loop, and it reads inside the table. -/
theorem reportTableLoop_fuel (list : List CodePoint) (code : Nat) :
    ∀ fuel b e, b < e → e ≤ list.length → e - b < fuel →
      reportTableLoop list code fuel b e ((b + e) / 2) ≠ LookupResult.diverges ∧
      reportTableLoop list code fuel b e ((b + e) / 2) ≠ LookupResult.outOfBounds := by
  intro fuel
  induction fuel with
  | zero => intro b e _ _ h; omega
  | succ fuel ih =>
    intro b e hbe hlen hfuel
    have hm3 : (b + e) / 2 < list.length := by omega
    unfold reportTableLoop
    rw [List.getElem?_eq_getElem hm3]
    simp only
    by_cases hne : code ≠ (list[(b + e) / 2]).code
    · rw [if_pos hne]
      by_cases hgt : code > (list[(b + e) / 2]).code
      · rw [if_pos hgt]
        by_cases hstep : (b + e) / 2 = ((b + e) / 2 + e) / 2
        · rw [if_pos hstep]; exact ⟨by simp, by simp⟩
        · rw [if_neg hstep]
          exact ih _ _ (by omega) hlen (by omega)
      · have hlt : code < (list[(b + e) / 2]).code := by omega
        rw [if_neg hgt, if_pos hlt]
        by_cases hstep : (b + e) / 2 = (b + (b + e) / 2) / 2
        · rw [if_pos hstep]; exact ⟨by simp, by simp⟩
        · rw [if_neg hstep]
          exact ih _ _ (by omega) (by omega) (by omega)
    · rw [if_neg hne]; exact ⟨by simp, by simp⟩

theorem reportTable_at_index (list : List CodePoint)
    (hsorted : list.Pairwise (fun p q => p.code ≤ q.code))
    (hdistinct : (list.map CodePoint.code).Nodup)
    (i : Nat) (hi : i < list.length) :
    reportTable list (list[i]).code = LookupResult.found (list[i]).description := by
  have hs := strictly_ascending list hsorted hdistinct
  unfold reportTable
  simp only [Nat.zero_add]
  have := reportTableLoop_found list hs i hi (list.length + 1) 0 list.length
    (Nat.zero_le _) hi (Nat.le_refl _) (by omega)
  simpa using this

theorem reportTable_of_absent (list : List CodePoint) (hne : list ≠ [])
    (code : Nat) (habsent : ∀ p ∈ list, p.code ≠ code) :
    reportTable list code = LookupResult.notFound := by
  have hpos : 0 < list.length := List.length_pos.mpr hne
  unfold reportTable
  simp only [Nat.zero_add]
  have := reportTableLoop_notFound list code habsent (list.length + 1) 0 list.length
    hpos (Nat.le_refl _) (by omega)
  simpa using this

/-! ## The state after each statement -/

theorem fgetc_input (s : Io) : (fgetc s).2.input = s.input.drop 1 := by
  unfold fgetc; cases h : s.input <;> simp [h]

theorem fgetc_location (s : Io) : (fgetc s).2.location = s.location := by
  unfold fgetc; cases h : s.input <;> simp [h]

theorem fgetc_out (s : Io) : (fgetc s).2.out = s.out := by
  unfold fgetc; cases h : s.input <;> simp [h]

theorem fgetc_lookups (s : Io) : (fgetc s).2.lookups = s.lookups := by
  unfold fgetc; cases h : s.input <;> simp [h]

theorem incr_input (s : Io) : s.incr.input = s.input := rfl
theorem incr_location (s : Io) : s.incr.location = s.location + 1 := rfl
theorem incr_out (s : Io) : s.incr.out = s.out := rfl
theorem incr_lookups (s : Io) : s.incr.lookups = s.lookups := rfl
theorem emit_input (s : Io) (e : Event) : (s.emit e).input = s.input := rfl
theorem emit_location (s : Io) (e : Event) : (s.emit e).location = s.location := rfl
theorem emit_out (s : Io) (e : Event) : (s.emit e).out = s.out ++ [e] := rfl
theorem emit_lookups (s : Io) (e : Event) : (s.emit e).lookups = s.lookups := rfl

theorem lookupOrUnknown_input (table : List CodePoint) (hex : Nat) (offset : Int)
    (s : Io) : (lookupOrUnknown table hex offset s).2.input = s.input := by
  unfold lookupOrUnknown; split <;> rfl

theorem lookupOrUnknown_location (table : List CodePoint) (hex : Nat) (offset : Int)
    (s : Io) : (lookupOrUnknown table hex offset s).2.location = s.location := by
  unfold lookupOrUnknown; split <;> rfl

/-- Every handler reads some number `m` of bytes after the lead byte and
leaves `location` advanced by `1 + m`. -/
theorem twoBytes_consumes (table : List CodePoint) (code : Nat) (s : Io) :
    ∃ m : Nat, (twoBytes table code s).2.input = s.input.drop m ∧
      (twoBytes table code s).2.location = s.location + 1 + m := by
  unfold twoBytes
  dsimp only
  split_ifs <;> refine ⟨1, ?_, ?_⟩ <;>
    simp only [fgetc_input, fgetc_location, incr_input, incr_location, emit_input,
      emit_location, lookupOrUnknown_input, lookupOrUnknown_location, List.drop_drop,
      Nat.cast_ofNat] <;> rfl

theorem threeBytes_consumes (table : List CodePoint) (code : Nat) (s : Io) :
    ∃ m : Nat, (threeBytes table code s).2.input = s.input.drop m ∧
      (threeBytes table code s).2.location = s.location + 1 + m := by
  unfold threeBytes
  dsimp only
  split_ifs
  all_goals
    first
    | refine ⟨2, ?_, ?_⟩ <;>
        simp only [fgetc_input, fgetc_location, incr_input, incr_location, emit_input,
          emit_location, lookupOrUnknown_input, lookupOrUnknown_location, List.drop_drop,
          Nat.cast_ofNat] <;> first | rfl | omega
    | exact ⟨1, by simp only [fgetc_input, incr_input, emit_input, List.drop_drop],
        by simp only [fgetc_location, incr_location, emit_location]; rfl⟩

theorem fourBytes_consumes (table : List CodePoint) (code : Nat) (s : Io) :
    ∃ m : Nat, (fourBytes table code s).2.input = s.input.drop m ∧
      (fourBytes table code s).2.location = s.location + 1 + m := by
  unfold fourBytes
  dsimp only
  split_ifs
  all_goals
    first
    | refine ⟨3, ?_, ?_⟩ <;>
        simp only [fgetc_input, fgetc_location, incr_input, incr_location, emit_input,
          emit_location, lookupOrUnknown_input, lookupOrUnknown_location, List.drop_drop,
          Nat.cast_ofNat] <;> first | rfl | omega
    | refine ⟨2, ?_, ?_⟩ <;>
        simp only [fgetc_input, fgetc_location, incr_input, incr_location, emit_input,
          emit_location, lookupOrUnknown_input, lookupOrUnknown_location, List.drop_drop,
          Nat.cast_ofNat] <;> first | rfl | omega
    | exact ⟨1, by simp only [fgetc_input, incr_input, emit_input, List.drop_drop],
        by simp only [fgetc_location, incr_location, emit_location]; rfl⟩

theorem loopBody_consumes (table : List CodePoint) (code : Nat) (s : Io) :
    ∃ m : Nat, (loopBody table code s).2.input = s.input.drop m ∧
      (loopBody table code s).2.location = s.location + 1 + m := by
  unfold loopBody
  split
  · exact fourBytes_consumes table code s
  · exact threeBytes_consumes table code s
  · exact twoBytes_consumes table code s
  · refine ⟨0, ?_, ?_⟩ <;>
      simp only [incr_input, incr_location, lookupOrUnknown_input, lookupOrUnknown_location,
        List.drop_zero, Nat.cast_zero, add_zero]
  · refine ⟨0, ?_, ?_⟩ <;>
      simp only [incr_input, incr_location, emit_input, emit_location,
        List.drop_zero, Nat.cast_zero, add_zero]

/-- At every evaluation of the loop condition of `main`, either the input is
exhausted, or `code` holds an input byte, the unread bytes are those after it
and `location` is the offset of that byte. -/
theorem loopHead_synced (table : List CodePoint) (input : List (Fin 256)) :
    ∀ (n : Nat) (code : Nat) (s : Io), loopHead table input n = some (code, s) →
      (code = EOF ∧ s.input = []) ∨
      ∃ (pre : List (Fin 256)) (b : Fin 256),
        code = b.val ∧ input = pre ++ b :: s.input ∧ s.location = (pre.length : Int) := by
  intro n
  induction n with
  | zero =>
    intro code s h
    simp only [loopHead, Option.some.injEq] at h
    cases input with
    | nil =>
      left
      simp only [fgetc, initial, Prod.mk.injEq] at h
      obtain ⟨h1, h2⟩ := h
      subst h1; subst h2
      exact ⟨rfl, rfl⟩
    | cons b rest =>
      right
      simp only [fgetc, initial, Prod.mk.injEq] at h
      obtain ⟨h1, h2⟩ := h
      subst h1; subst h2
      exact ⟨[], b, rfl, rfl, rfl⟩
  | succ n ih =>
    intro code s h
    simp only [loopHead] at h
    cases h0 : loopHead table input n with
    | none => simp [h0] at h
    | some p =>
      obtain ⟨code0, s0⟩ := p
      simp only [h0] at h
      by_cases hc : code0 ≠ EOF
      · rw [if_pos hc] at h
        by_cases hb : (loopBody table code0 s0).1 = true
        · rw [if_pos hb] at h
          simp only [Option.some.injEq] at h
          rcases ih code0 s0 h0 with ⟨he, _⟩ | ⟨pre, b, hcode, hin, hloc⟩
          · exact absurd he hc
          · obtain ⟨m, hm1, hm2⟩ := loopBody_consumes table code0 s0
            cases hrest : (loopBody table code0 s0).2.input with
            | nil =>
              left
              simp only [fgetc, hrest, Prod.mk.injEq] at h
              obtain ⟨h1, h2⟩ := h
              subst h1; subst h2
              exact ⟨rfl, hrest⟩
            | cons c rest =>
              right
              simp only [fgetc, hrest, Prod.mk.injEq] at h
              obtain ⟨h1, h2⟩ := h
              subst h1; subst h2
              rw [hrest] at hm1
              have hlen : m < s0.input.length := by
                by_contra hcon
                rw [List.drop_eq_nil_of_le (by omega)] at hm1
                exact List.cons_ne_nil _ _ hm1
              refine ⟨pre ++ b :: s0.input.take m, c, rfl, ?_, ?_⟩
              · have hsplit : s0.input = s0.input.take m ++ c :: rest := by
                  rw [hm1]; exact (List.take_append_drop m s0.input).symm
                simp only [List.append_assoc, List.cons_append]
                rw [← hsplit]; exact hin
              · simp only [hm2, hloc, List.length_append, List.length_cons, List.length_take]
                have : min m s0.input.length = m := by omega
                rw [this]; push_cast; ring
        · rw [if_neg hb] at h
          exact absurd h (by simp)
      · rw [if_neg hc] at h
        exact absurd h (by simp)

/-- While the decoder is awaiting a lead byte at offset `k`, `location` is `k`. -/
theorem awaitingLead_location (table : List CodePoint) (input : List (Fin 256)) (k : Nat)
    (code : Nat) (s : Io) (h : AwaitingLead table input k code s) : s.location = (k : Int) := by
  obtain ⟨n, b, hhead, hcode, hdrop⟩ := h
  rcases loopHead_synced table input n code s hhead with ⟨he, _⟩ | ⟨pre, b2, _, hin, hloc⟩
  · exfalso
    have := b.isLt
    simp only [EOF] at he
    omega
  · have h1 : (input.drop k).length = s.input.length + 1 := by rw [hdrop]; simp
    have h2 : input.length = pre.length + (s.input.length + 1) := by rw [hin]; simp
    rw [List.length_drop] at h1
    rw [hloc]
    have : pre.length = k := by omega
    rw [this]

/-- The bytes from offset `k` on are the byte in `code` and the unread bytes. -/
theorem awaitingLead_bytes (table : List CodePoint) (input : List (Fin 256)) (k : Nat)
    (code : Nat) (s : Io) (h : AwaitingLead table input k code s) (lead : Fin 256)
    (rest : List (Fin 256)) (hdrop : input.drop k = lead :: rest) :
    code = lead.val ∧ s.input = rest := by
  obtain ⟨n, b, _, hcode, hdrop2⟩ := h
  rw [hdrop] at hdrop2
  simp only [List.cons.injEq] at hdrop2
  exact ⟨by rw [hcode, hdrop2.1], hdrop2.2.symm⟩

/-- When the body of the loop returns to the loop with a byte `c` next in the
input, the decoder is awaiting `c` as a lead byte. -/
theorem awaitingLead_next (table : List CodePoint) (input : List (Fin 256)) (k : Nat)
    (code : Nat) (s : Io) (h : AwaitingLead table input k code s) (s2 : Io)
    (hbody : loopBody table code s = (true, s2)) (j : Nat) (c : Fin 256)
    (rest : List (Fin 256)) (hdrop : input.drop j = c :: rest) (hin : s2.input = c :: rest) :
    AwaitingLead table input j c.val { s2 with input := rest } := by
  obtain ⟨n, b, hhead, hcode, _⟩ := h
  refine ⟨n + 1, c, ?_, rfl, hdrop⟩
  have hne : code ≠ EOF := by
    have := b.isLt
    simp only [EOF]
    omega
  simp only [loopHead, hhead, hbody, if_pos hne, if_true, fgetc, hin]

/-! ## Bytes and bit patterns -/

theorem byte_ne_EOF (b : Fin 256) : b.val ≠ EOF := by
  have := b.isLt
  simp only [EOF]
  omega

set_option maxRecDepth 100000 in
theorem continuation_test : ∀ n < 256, (n &&& MULTI_BYTE_MASK = MULTI_BYTE_MASK ↔ 0x80 ≤ n) := by
  decide

set_option maxRecDepth 100000 in
theorem classify_byte : ∀ n < 256,
    classify n =
      if 0xF0 ≤ n then LeadClass.fourByte
      else if 0xE0 ≤ n then LeadClass.threeByte
      else if 0xC0 ≤ n then LeadClass.twoByte
      else if n < 0x80 then LeadClass.oneByte
      else LeadClass.invalid := by
  decide

theorem shiftLeft_six_or (a r : Nat) (hr : r < 64) : (a <<< 6) ||| r = a * 64 + r := by
  rw [Nat.shiftLeft_eq]
  have := Nat.mul_add_lt_is_or (i := 6) (show r < 2 ^ 6 by omega) a
  rw [Nat.mul_comm] 
  rw [← this]

theorem and_3F (n : Nat) : n &&& CONSEC_BYTE_MASK = n % 64 :=
  Nat.and_pow_two_sub_one_eq_mod n 6

theorem and_1F (n : Nat) : n &&& TWO_BYTE_MASK = n % 32 :=
  Nat.and_pow_two_sub_one_eq_mod n 5

theorem and_0F (n : Nat) : n &&& FOURTH_BYTE_MASK = n % 16 :=
  Nat.and_pow_two_sub_one_eq_mod n 4

theorem checkTwoByteEncoding_eq (hex : Nat) :
    checkTwoByteEncoding hex = decide (0x80 ≤ hex) := by
  unfold checkTwoByteEncoding
  simp only [Nat.shiftRight_eq_div_pow, Nat.shiftLeft_eq, Nat.or_zero]
  by_cases h : 0x80 ≤ hex
  · have : ¬ (hex / 2 ^ 7 * 2 ^ 7 = 0) := by omega
    simp [this, h]
  · have : hex / 2 ^ 7 * 2 ^ 7 = 0 := by omega
    simp [this, h]

theorem checkThreeByteEncoding_eq (hex : Nat) :
    checkThreeByteEncoding hex = decide (0x800 ≤ hex) := by
  unfold checkThreeByteEncoding
  simp only [Nat.shiftRight_eq_div_pow, Nat.shiftLeft_eq, Nat.or_zero]
  by_cases h : 0x800 ≤ hex
  · have h1 : ¬ (hex / 2 ^ 11 * 2 ^ 11 = 0) := by omega
    have h2 : ¬ (hex / 2 ^ 7 * 2 ^ 7 = 0) := by omega
    simp [h1, h2, h]
  · have h1 : hex / 2 ^ 11 * 2 ^ 11 = 0 := by omega
    simp [h1, h]

theorem checkFourByteEncoding_eq (hex : Nat) :
    checkFourByteEncoding hex = decide (0x10000 ≤ hex) := by
  unfold checkFourByteEncoding
  simp only [Nat.shiftRight_eq_div_pow, Nat.shiftLeft_eq, Nat.or_zero]
  by_cases h : 0x10000 ≤ hex
  · have h1 : ¬ (hex / 2 ^ 16 * 2 ^ 16 = 0) := by omega
    have h2 : ¬ (hex / 2 ^ 11 * 2 ^ 11 = 0) := by omega
    have h3 : ¬ (hex / 2 ^ 7 * 2 ^ 7 = 0) := by omega
    simp [h1, h2, h3, h]
  · have h1 : hex / 2 ^ 16 * 2 ^ 16 = 0 := by omega
    simp [h1, h]

/-! ## The handlers on each shape of input -/

theorem loc_add_two (x : Int) : x + 1 + 1 = x + 2 := by omega
theorem loc_add_three (x : Int) : x + 2 + 1 = x + 3 := by omega
theorem loc_add_four (x : Int) : x + 3 + 1 = x + 4 := by omega
theorem loc_two_sub_one (x : Int) : x + 2 - 1 = x + 1 := by omega
theorem loc_two_sub_two (x : Int) : x + 2 - 2 = x := by omega
theorem loc_three_sub_one (x : Int) : x + 3 - 1 = x + 2 := by omega
theorem loc_three_sub_three (x : Int) : x + 3 - THREE_BYTES = x := by simp only [THREE_BYTES]; omega
theorem loc_four_sub_one (x : Int) : x + 4 - 1 = x + 3 := by omega
theorem loc_four_sub_four (x : Int) : x + 4 - FOUR_BYTES = x := by simp only [FOUR_BYTES]; omega

theorem continuation_accepted (c : Fin 256) (h : 0x80 ≤ c.val) :
    c.val &&& MULTI_BYTE_MASK = MULTI_BYTE_MASK := by
  rw [continuation_test _ c.isLt]; exact h

theorem continuation_rejected (c : Fin 256) (h : c.val < 0x80) :
    ¬ (c.val &&& MULTI_BYTE_MASK = MULTI_BYTE_MASK) := by
  rw [continuation_test _ c.isLt]; omega

theorem twoBytes_eof (table : List CodePoint) (code : Nat) (s : Io) (hin : s.input = []) :
    twoBytes table code s =
      (false, { input := [], location := s.location + 2,
                out := s.out ++ [Event.incompleteCode s.location], lookups := s.lookups }) := by
  unfold twoBytes
  simp only [fgetc, Io.incr, Io.emit, hin, ne_eq, not_true_eq_false, if_false,
    loc_add_two, loc_two_sub_two]

theorem twoBytes_bad (table : List CodePoint) (code : Nat) (s : Io) (c1 : Fin 256)
    (tail : List (Fin 256)) (hin : s.input = c1 :: tail) (h1 : c1.val < 0x80) :
    twoBytes table code s =
      (true, { input := tail, location := s.location + 2,
               out := s.out ++ [Event.invalidByte c1.val (s.location + 1)],
               lookups := s.lookups }) := by
  unfold twoBytes
  simp only [fgetc, Io.incr, Io.emit, hin, ne_eq, byte_ne_EOF, not_false_eq_true, if_true,
    continuation_rejected c1 h1, if_false, loc_add_two, loc_two_sub_one]

theorem twoBytes_ok (table : List CodePoint) (code : Nat) (s : Io) (c1 : Fin 256)
    (tail : List (Fin 256)) (hin : s.input = c1 :: tail) (h1 : 0x80 ≤ c1.val) :
    twoBytes table code s =
      if code % 32 * 64 + c1.val % 64 < 0x80 then
        (true, { input := tail, location := s.location + 2,
                 out := s.out ++ [Event.invalidEncoding (code % 32 * 64 + c1.val % 64) s.location],
                 lookups := s.lookups })
      else
        lookupOrUnknown table (code % 32 * 64 + c1.val % 64) s.location
          { input := tail, location := s.location + 2, out := s.out, lookups := s.lookups } := by
  have hhex : ((code &&& TWO_BYTE_MASK) <<< (SIG_BITS_TWO_BYTES - 1)) ||| (c1.val &&& CONSEC_BYTE_MASK)
      = code % 32 * 64 + c1.val % 64 := by
    rw [and_1F, and_3F]
    exact shiftLeft_six_or _ _ (Nat.mod_lt _ (by decide))
  unfold twoBytes
  simp only [fgetc, Io.incr, Io.emit, hin, ne_eq, byte_ne_EOF, not_false_eq_true, if_true,
    continuation_accepted c1 h1, hhex, checkTwoByteEncoding_eq, loc_add_two, loc_two_sub_two]
  by_cases h : code % 32 * 64 + c1.val % 64 < 0x80
  · have h2 : ¬ (128 ≤ code % 32 * 64 + c1.val % 64) := by omega
    simp only [h, h2, decide_False, Bool.not_false, if_true]
  · have h2 : 128 ≤ code % 32 * 64 + c1.val % 64 := by omega
    simp only [h, h2, decide_True, Bool.not_true, if_false, Bool.false_eq_true]

theorem threeBytes_eof1 (table : List CodePoint) (code : Nat) (s : Io) (hin : s.input = []) :
    threeBytes table code s =
      (false, { input := [], location := s.location + 2,
                out := s.out ++ [Event.incompleteCode s.location], lookups := s.lookups }) := by
  unfold threeBytes
  simp only [fgetc, Io.incr, Io.emit, hin, ne_eq, not_true_eq_false, if_false,
    loc_add_two, loc_two_sub_two]

theorem threeBytes_bad1 (table : List CodePoint) (code : Nat) (s : Io) (c1 : Fin 256)
    (tail : List (Fin 256)) (hin : s.input = c1 :: tail) (h1 : c1.val < 0x80) :
    threeBytes table code s =
      (true, { input := tail.drop 1, location := s.location + 3,
               out := s.out ++ [Event.invalidByte c1.val (s.location + 1)],
               lookups := s.lookups }) := by
  unfold threeBytes
  cases tail <;>
    simp only [fgetc, Io.incr, Io.emit, hin, ne_eq, byte_ne_EOF, not_false_eq_true, if_true,
      continuation_rejected c1 h1, if_false, loc_add_two, loc_two_sub_one, loc_add_three,
      List.drop_nil, List.drop_succ_cons, List.drop_zero]

theorem threeBytes_eof2 (table : List CodePoint) (code : Nat) (s : Io) (c1 : Fin 256)
    (hin : s.input = [c1]) (h1 : 0x80 ≤ c1.val) :
    threeBytes table code s =
      (false, { input := [], location := s.location + 3,
                out := s.out ++ [Event.incompleteCode s.location], lookups := s.lookups }) := by
  unfold threeBytes
  simp only [fgetc, Io.incr, Io.emit, hin, ne_eq, byte_ne_EOF, not_false_eq_true, if_true,
    continuation_accepted c1 h1, not_true_eq_false, if_false, loc_add_two, loc_add_three,
    loc_three_sub_three]

theorem threeBytes_bad2 (table : List CodePoint) (code : Nat) (s : Io) (c1 c2 : Fin 256)
    (tail : List (Fin 256)) (hin : s.input = c1 :: c2 :: tail) (h1 : 0x80 ≤ c1.val)
    (h2 : c2.val < 0x80) :
    threeBytes table code s =
      (true, { input := tail, location := s.location + 3,
               out := s.out ++ [Event.invalidByte c2.val (s.location + 2)],
               lookups := s.lookups }) := by
  unfold threeBytes
  simp only [fgetc, Io.incr, Io.emit, hin, ne_eq, byte_ne_EOF, not_false_eq_true, if_true,
    continuation_accepted c1 h1, continuation_rejected c2 h2, if_false, loc_add_two,
    loc_add_three, loc_three_sub_one]

theorem threeBytes_ok (table : List CodePoint) (code : Nat) (s : Io) (c1 c2 : Fin 256)
    (tail : List (Fin 256)) (hin : s.input = c1 :: c2 :: tail) (h1 : 0x80 ≤ c1.val)
    (h2 : 0x80 ≤ c2.val) :
    threeBytes table code s =
      if (code % 16 * 64 + c1.val % 64) * 64 + c2.val % 64 < 0x800 then
        (true, { input := tail, location := s.location + 3,
                 out := s.out ++ [Event.invalidEncoding
                   ((code % 16 * 64 + c1.val % 64) * 64 + c2.val % 64) s.location],
                 lookups := s.lookups })
      else
        lookupOrUnknown table ((code % 16 * 64 + c1.val % 64) * 64 + c2.val % 64) s.location
          { input := tail, location := s.location + 3, out := s.out, lookups := s.lookups } := by
  have hhex : ((((code &&& FOURTH_BYTE_MASK) <<< (SIG_BITS_TWO_BYTES - 1)) |||
      (c1.val &&& CONSEC_BYTE_MASK)) <<< (SIG_BITS_TWO_BYTES - 1)) ||| (c2.val &&& CONSEC_BYTE_MASK)
      = (code % 16 * 64 + c1.val % 64) * 64 + c2.val % 64 := by
    rw [and_0F, and_3F, and_3F]
    show ((code % 16) <<< 6 ||| c1.val % 64) <<< 6 ||| c2.val % 64 = _
    rw [shiftLeft_six_or _ _ (Nat.mod_lt _ (by decide)),
      shiftLeft_six_or _ _ (Nat.mod_lt _ (by decide))]
  unfold threeBytes
  simp only [fgetc, Io.incr, Io.emit, hin, ne_eq, byte_ne_EOF, not_false_eq_true, if_true,
    continuation_accepted c1 h1, continuation_accepted c2 h2, hhex, checkThreeByteEncoding_eq,
    loc_add_two, loc_add_three, loc_three_sub_three]
  by_cases h : (code % 16 * 64 + c1.val % 64) * 64 + c2.val % 64 < 0x800
  · have h2 : ¬ (2048 ≤ (code % 16 * 64 + c1.val % 64) * 64 + c2.val % 64) := by omega
    simp only [h, h2, decide_False, Bool.not_false, if_true]
  · have h2 : 2048 ≤ (code % 16 * 64 + c1.val % 64) * 64 + c2.val % 64 := by omega
    simp only [h, h2, decide_True, Bool.not_true, if_false, Bool.false_eq_true]

theorem fourBytes_eof1 (table : List CodePoint) (code : Nat) (s : Io) (hin : s.input = []) :
    fourBytes table code s =
      (false, { input := [], location := s.location + 2,
                out := s.out ++ [Event.incompleteCode s.location], lookups := s.lookups }) := by
  unfold fourBytes
  simp only [fgetc, Io.incr, Io.emit, hin, ne_eq, not_true_eq_false, if_false,
    loc_add_two, loc_two_sub_two]

theorem fourBytes_bad1 (table : List CodePoint) (code : Nat) (s : Io) (c1 : Fin 256)
    (tail : List (Fin 256)) (hin : s.input = c1 :: tail) (h1 : c1.val < 0x80) :
    fourBytes table code s =
      (true, { input := tail.drop 2, location := s.location + 4,
               out := s.out ++ [Event.invalidByte c1.val (s.location + 1)],
               lookups := s.lookups }) := by
  unfold fourBytes
  rcases tail with _ | ⟨c2, _ | ⟨c3, tail⟩⟩ <;>
    simp only [fgetc, Io.incr, Io.emit, hin, ne_eq, byte_ne_EOF, not_false_eq_true, if_true,
      continuation_rejected c1 h1, if_false, loc_add_two, loc_two_sub_one, loc_add_three,
      loc_add_four, List.drop_nil, List.drop_succ_cons, List.drop_zero]

theorem fourBytes_eof2 (table : List CodePoint) (code : Nat) (s : Io) (c1 : Fin 256)
    (hin : s.input = [c1]) (h1 : 0x80 ≤ c1.val) :
    fourBytes table code s =
      (false, { input := [], location := s.location + 3,
                out := s.out ++ [Event.incompleteCode s.location], lookups := s.lookups }) := by
  unfold fourBytes
  simp only [fgetc, Io.incr, Io.emit, hin, ne_eq, byte_ne_EOF, not_false_eq_true, if_true,
    continuation_accepted c1 h1, not_true_eq_false, if_false, loc_add_two, loc_add_three,
    loc_three_sub_three]

theorem fourBytes_bad2 (table : List CodePoint) (code : Nat) (s : Io) (c1 c2 : Fin 256)
    (tail : List (Fin 256)) (hin : s.input = c1 :: c2 :: tail) (h1 : 0x80 ≤ c1.val)
    (h2 : c2.val < 0x80) :
    fourBytes table code s =
      (true, { input := tail.drop 1, location := s.location + 4,
               out := s.out ++ [Event.invalidByte c2.val (s.location + 2)],
               lookups := s.lookups }) := by
  unfold fourBytes
  cases tail <;>
    simp only [fgetc, Io.incr, Io.emit, hin, ne_eq, byte_ne_EOF, not_false_eq_true, if_true,
      continuation_accepted c1 h1, continuation_rejected c2 h2, if_false, loc_add_two,
      loc_add_three, loc_three_sub_one, loc_add_four, List.drop_nil, List.drop_succ_cons,
      List.drop_zero]

theorem fourBytes_eof3 (table : List CodePoint) (code : Nat) (s : Io) (c1 c2 : Fin 256)
    (hin : s.input = [c1, c2]) (h1 : 0x80 ≤ c1.val) (h2 : 0x80 ≤ c2.val) :
    fourBytes table code s =
      (false, { input := [], location := s.location + 4,
                out := s.out ++ [Event.incompleteCode s.location], lookups := s.lookups }) := by
  unfold fourBytes
  simp only [fgetc, Io.incr, Io.emit, hin, ne_eq, byte_ne_EOF, not_false_eq_true, if_true,
    continuation_accepted c1 h1, continuation_accepted c2 h2, not_true_eq_false, if_false,
    loc_add_two, loc_add_three, loc_add_four, loc_four_sub_four]

theorem fourBytes_bad3 (table : List CodePoint) (code : Nat) (s : Io) (c1 c2 c3 : Fin 256)
    (tail : List (Fin 256)) (hin : s.input = c1 :: c2 :: c3 :: tail) (h1 : 0x80 ≤ c1.val)
    (h2 : 0x80 ≤ c2.val) (h3 : c3.val < 0x80) :
    fourBytes table code s =
      (true, { input := tail, location := s.location + 4,
               out := s.out ++ [Event.invalidByte c3.val (s.location + 3)],
               lookups := s.lookups }) := by
  unfold fourBytes
  simp only [fgetc, Io.incr, Io.emit, hin, ne_eq, byte_ne_EOF, not_false_eq_true, if_true,
    continuation_accepted c1 h1, continuation_accepted c2 h2, continuation_rejected c3 h3,
    if_false, loc_add_two, loc_add_three, loc_add_four, loc_four_sub_one]

theorem fourBytes_ok (table : List CodePoint) (code : Nat) (s : Io) (c1 c2 c3 : Fin 256)
    (tail : List (Fin 256)) (hin : s.input = c1 :: c2 :: c3 :: tail) (h1 : 0x80 ≤ c1.val)
    (h2 : 0x80 ≤ c2.val) (h3 : 0x80 ≤ c3.val) :
    fourBytes table code s =
      if ((code % 16 * 64 + c1.val % 64) * 64 + c2.val % 64) * 64 + c3.val % 64 < 0x10000 then
        (true, { input := tail, location := s.location + 4,
                 out := s.out ++ [Event.invalidEncoding
                   (((code % 16 * 64 + c1.val % 64) * 64 + c2.val % 64) * 64 + c3.val % 64)
                   s.location],
                 lookups := s.lookups })
      else
        lookupOrUnknown table
          (((code % 16 * 64 + c1.val % 64) * 64 + c2.val % 64) * 64 + c3.val % 64) s.location
          { input := tail, location := s.location + 4, out := s.out, lookups := s.lookups } := by
  have hhex : ((((((code &&& FOURTH_BYTE_MASK) <<< (SIG_BITS_TWO_BYTES - 1)) |||
      (c1.val &&& CONSEC_BYTE_MASK)) <<< (SIG_BITS_TWO_BYTES - 1)) |||
      (c2.val &&& CONSEC_BYTE_MASK)) <<< (SIG_BITS_TWO_BYTES - 1)) ||| (c3.val &&& CONSEC_BYTE_MASK)
      = ((code % 16 * 64 + c1.val % 64) * 64 + c2.val % 64) * 64 + c3.val % 64 := by
    rw [and_0F, and_3F, and_3F, and_3F]
    show (((code % 16) <<< 6 ||| c1.val % 64) <<< 6 ||| c2.val % 64) <<< 6 ||| c3.val % 64 = _
    rw [shiftLeft_six_or _ _ (Nat.mod_lt _ (by decide)),
      shiftLeft_six_or _ _ (Nat.mod_lt _ (by decide)),
      shiftLeft_six_or _ _ (Nat.mod_lt _ (by decide))]
  unfold fourBytes
  simp only [fgetc, Io.incr, Io.emit, hin, ne_eq, byte_ne_EOF, not_false_eq_true, if_true,
    continuation_accepted c1 h1, continuation_accepted c2 h2, continuation_accepted c3 h3, hhex,
    checkFourByteEncoding_eq, loc_add_two, loc_add_three, loc_add_four, loc_four_sub_four]
  by_cases h : ((code % 16 * 64 + c1.val % 64) * 64 + c2.val % 64) * 64 + c3.val % 64 < 0x10000
  · have h2 : ¬ (65536 ≤ ((code % 16 * 64 + c1.val % 64) * 64 + c2.val % 64) * 64 + c3.val % 64) := by
      omega
    simp only [h, h2, decide_False, Bool.not_false, if_true]
  · have h2 : 65536 ≤ ((code % 16 * 64 + c1.val % 64) * 64 + c2.val % 64) * 64 + c3.val % 64 := by
      omega
    simp only [h, h2, decide_True, Bool.not_true, if_false, Bool.false_eq_true]

/-! ## Lookups made by the decoder -/

theorem ofNat_val (n : Nat) (h : n < 256) : (Fin.ofNat n : Fin 256).val = n :=
  Nat.mod_eq_of_lt h

/-- On a non-empty table sorted ascending with distinct codes, the lookup
made by the decoder returns, records its argument, and writes one line: the
description of the entry with that code, or "Unknown code" when there is none. -/
theorem lookupOrUnknown_sorted (table : List CodePoint)
    (hsorted : table.Pairwise (fun p q => p.code ≤ q.code))
    (hdistinct : (table.map CodePoint.code).Nodup) (hne : table ≠ [])
    (hex : Nat) (offset : Int) (s : Io) :
    ∃ ev : Event,
      lookupOrUnknown table hex offset s =
        (true, { input := s.input, location := s.location, out := s.out ++ [ev],
                 lookups := s.lookups ++ [hex] }) ∧
      ((∃ p ∈ table, p.code = hex ∧ ev = Event.name p.description) ∨
       ((∀ p ∈ table, p.code ≠ hex) ∧ ev = Event.unknownCode hex offset)) := by
  by_cases hex_in : ∃ p ∈ table, p.code = hex
  · obtain ⟨p, hp, hcode⟩ := hex_in
    obtain ⟨i, hi, hget⟩ := List.getElem_of_mem hp
    have hfound := reportTable_at_index table hsorted hdistinct i hi
    rw [hget, hcode] at hfound
    refine ⟨Event.name p.description, ?_, Or.inl ⟨p, hp, hcode, rfl⟩⟩
    simp only [lookupOrUnknown, hfound, Io.emit]
  · have habsent : ∀ p ∈ table, p.code ≠ hex := fun p hp hc => hex_in ⟨p, hp, hc⟩
    have hnone := reportTable_of_absent table hne hex habsent
    refine ⟨Event.unknownCode hex offset, ?_, Or.inr ⟨habsent, rfl⟩⟩
    simp only [lookupOrUnknown, hnone, Io.emit]

theorem awaitingLead_lt (table : List CodePoint) (input : List (Fin 256)) (k : Nat)
    (code : Nat) (s : Io) (h : AwaitingLead table input k code s) : code < 256 := by
  obtain ⟨_, b, _, hcode, _⟩ := h
  rw [hcode]; exact b.isLt

theorem awaitingLead_unread (table : List CodePoint) (input : List (Fin 256)) (k : Nat)
    (code : Nat) (s : Io) (h : AwaitingLead table input k code s) :
    s.input = input.drop (k + 1) := by
  obtain ⟨_, b, _, _, hdrop⟩ := h
  have : input.drop (k + 1) = (input.drop k).drop 1 := by
    rw [List.drop_drop, Nat.add_comm]
  rw [this, hdrop]; rfl

theorem loopBody_twoByte (table : List CodePoint) (code : Nat) (s : Io) (hlt : code < 256)
    (h1 : 0xC0 ≤ code) (h2 : code ≤ 0xDF) : loopBody table code s = twoBytes table code s := by
  have hclass : classify code = LeadClass.twoByte := by
    rw [classify_byte code hlt]
    simp only [show ¬ (0xF0 ≤ code) by omega, show ¬ (0xE0 ≤ code) by omega,
      show 0xC0 ≤ code by omega, if_false, if_true]
  simp only [loopBody, hclass]

theorem loopBody_threeByte (table : List CodePoint) (code : Nat) (s : Io) (hlt : code < 256)
    (h1 : 0xE0 ≤ code) (h2 : code ≤ 0xEF) : loopBody table code s = threeBytes table code s := by
  have hclass : classify code = LeadClass.threeByte := by
    rw [classify_byte code hlt]
    simp only [show ¬ (0xF0 ≤ code) by omega, show 0xE0 ≤ code by omega, if_false, if_true]
  simp only [loopBody, hclass]

theorem loopBody_fourByte (table : List CodePoint) (code : Nat) (s : Io) (hlt : code < 256)
    (h1 : 0xF0 ≤ code) : loopBody table code s = fourBytes table code s := by
  have hclass : classify code = LeadClass.fourByte := by
    rw [classify_byte code hlt]
    simp only [show 0xF0 ≤ code by omega, if_true]
  simp only [loopBody, hclass]

theorem bad_continuation_body (table : List CodePoint) (code : Nat) (s : Io)
    (N : Nat) (hN : (classify code).continuationBytes = some N)
    (good : List (Fin 256)) (bad : Fin 256) (tail : List (Fin 256))
    (hin : s.input = good ++ bad :: tail) (hlen : good.length < N)
    (hgood : ∀ c ∈ good, 0x80 ≤ c.val) (hbad : bad.val < 0x80) :
    loopBody table code s =
      (true, { input := tail.drop (N - good.length - 1), location := s.location + 1 + N,
               out := s.out ++ [Event.invalidByte bad.val (s.location + 1 + good.length)],
               lookups := s.lookups }) := by
  cases hc : classify code <;> simp only [hc, LeadClass.continuationBytes, Option.some.injEq] at hN
  · subst hN
    simp only [loopBody, hc]
    rcases good with _ | ⟨c1, _ | ⟨c2, _ | ⟨c3, rest⟩⟩⟩
    · rw [fourBytes_bad1 table code s bad tail hin hbad]
      simp
      omega
    · rw [fourBytes_bad2 table code s c1 bad tail hin (hgood c1 (by simp)) hbad]
      simp
      omega
    · rw [fourBytes_bad3 table code s c1 c2 bad tail hin (hgood c1 (by simp))
        (hgood c2 (by simp)) hbad]
      simp
      omega
    · simp only [List.length_cons] at hlen
      omega
  · subst hN
    simp only [loopBody, hc]
    rcases good with _ | ⟨c1, _ | ⟨c2, rest⟩⟩
    · rw [threeBytes_bad1 table code s bad tail hin hbad]
      simp
      omega
    · rw [threeBytes_bad2 table code s c1 bad tail hin (hgood c1 (by simp)) hbad]
      simp
      omega
    · simp only [List.length_cons] at hlen
      omega
  · subst hN
    simp only [loopBody, hc]
    rcases good with _ | ⟨c1, rest⟩
    · rw [twoBytes_bad table code s bad tail hin hbad]
      simp
      omega
    · simp only [List.length_cons] at hlen
      omega
  · subst hN
    omega
  · cases hN

theorem drop_past_sequence (input : List (Fin 256)) (k : Nat) (lead : Fin 256)
    (good : List (Fin 256)) (bad : Fin 256) (tail : List (Fin 256))
    (hbytes : input.drop k = lead :: good ++ bad :: tail) (i : Nat) :
    input.drop (k + 1 + good.length + 1 + i) = tail.drop i := by
  rw [show k + 1 + good.length + 1 + i = k + ((good.length + (i + 1)) + 1) by omega,
    ← List.drop_drop, hbytes, List.cons_append, List.drop_succ_cons, List.drop_append,
    List.drop_succ_cons]

/-! ## The whole run -/

theorem fgetc_eof_of_nil (s : Io) (h : s.input = []) : (fgetc s).1 = EOF := by
  simp only [fgetc, h]

/-- Any two bounds that leave room for one iteration per unread byte give the
same run. -/
theorem mainLoop_fuel (table : List CodePoint) :
    ∀ (fuel1 fuel2 code : Nat) (s : Io), 1 ≤ fuel1 → 1 ≤ fuel2 →
      (code ≠ EOF → s.input.length + 2 ≤ fuel1) → (code ≠ EOF → s.input.length + 2 ≤ fuel2) →
      mainLoop table fuel1 code s = mainLoop table fuel2 code s := by
  intro fuel1
  induction fuel1 with
  | zero => intro _ _ _ h; omega
  | succ f1 ih =>
    intro fuel2 code s _ h2 hf1 hf2
    cases fuel2 with
    | zero => omega
    | succ f2 =>
      unfold mainLoop
      by_cases hc : code ≠ EOF
      · simp only [if_pos hc]
        by_cases hr : (loopBody table code s).1 = true
        · simp only [if_pos hr]
          have hlen1 := hf1 hc
          have hlen2 := hf2 hc
          obtain ⟨m, hm, _⟩ := loopBody_consumes table code s
          have hshort : (loopBody table code s).2.input.length ≤ s.input.length := by
            rw [hm, List.length_drop]; omega
          have hnext : (fgetc (loopBody table code s).2).1 ≠ EOF →
              (fgetc (loopBody table code s).2).2.input.length + 2 ≤ s.input.length + 1 := by
            intro hne
            have hnonempty : (loopBody table code s).2.input ≠ [] :=
              fun hnil => hne (fgetc_eof_of_nil _ hnil)
            have hpos := List.length_pos.mpr hnonempty
            rw [fgetc_input, List.length_drop]
            omega
          exact ih f2 _ _ (by omega) (by omega) (fun hne => by have := hnext hne; omega)
            (fun hne => by have := hnext hne; omega)
        · simp only [if_neg hr]
      · simp only [if_neg hc]

/-- The run of `main` goes through every state `loopHead` gives. -/
theorem main_eq_of_loopHead (table : List CodePoint) (input : List (Fin 256)) :
    ∀ (n code : Nat) (s : Io), loopHead table input n = some (code, s) →
      ∀ fuel : Nat, 1 ≤ fuel → (code ≠ EOF → s.input.length + 2 ≤ fuel) →
        main table input = mainLoop table fuel code s := by
  intro n
  induction n with
  | zero =>
    intro code s h fuel h1 h2
    simp only [loopHead, Option.some.injEq] at h
    unfold main
    simp only [h]
    refine mainLoop_fuel table _ _ _ _ (by omega) h1 ?_ h2
    intro hne
    have hcode : (fgetc (initial input)).1 = code := by rw [h]
    have hs : (fgetc (initial input)).2 = s := by rw [h]
    have hnonempty : (initial input).input ≠ [] :=
      fun hnil => hne (hcode ▸ fgetc_eof_of_nil _ hnil)
    have hpos := List.length_pos.mpr hnonempty
    rw [← hs, fgetc_input, List.length_drop]
    simp only [initial] at hpos ⊢
    omega
  | succ n ih =>
    intro code s h fuel h1 h2
    simp only [loopHead] at h
    cases h0 : loopHead table input n with
    | none => simp [h0] at h
    | some p =>
      obtain ⟨code0, s0⟩ := p
      simp only [h0] at h
      by_cases hc : code0 ≠ EOF
      · rw [if_pos hc] at h
        by_cases hb : (loopBody table code0 s0).1 = true
        · rw [if_pos hb] at h
          simp only [Option.some.injEq] at h
          have hmain := ih code0 s0 h0 (s0.input.length + 1 + fuel + 1) (by omega)
            (fun _ => by omega)
          rw [hmain]
          conv_lhs => unfold mainLoop
          simp only [if_pos hc, if_pos hb, h]
          exact mainLoop_fuel table _ _ _ _ (by omega) h1 (fun hne => by have := h2 hne; omega) h2
        · rw [if_neg hb] at h
          exact absurd h (by simp)
      · rw [if_neg hc] at h
        exact absurd h (by simp)

theorem lookupOrUnknown_no_incomplete (table : List CodePoint) (hex : Nat) (offset : Int)
    (s : Io) (off : Int)
    (h : Event.incompleteCode off ∈ (lookupOrUnknown table hex offset s).2.out) :
    Event.incompleteCode off ∈ s.out := by
  unfold lookupOrUnknown at h
  split at h <;> simpa [Io.emit] using h

theorem twoBytes_no_incomplete (table : List CodePoint) (code : Nat) (s : Io)
    (hret : (twoBytes table code s).1 = true) (off : Int)
    (h : Event.incompleteCode off ∈ (twoBytes table code s).2.out) :
    Event.incompleteCode off ∈ s.out := by
  unfold twoBytes at hret h
  dsimp only at hret h
  split_ifs at hret h
  all_goals
    first
    | simpa [emit_out, fgetc_out, incr_out] using h
    | simpa [emit_out, fgetc_out, incr_out] using lookupOrUnknown_no_incomplete _ _ _ _ _ h

theorem threeBytes_no_incomplete (table : List CodePoint) (code : Nat) (s : Io)
    (hret : (threeBytes table code s).1 = true) (off : Int)
    (h : Event.incompleteCode off ∈ (threeBytes table code s).2.out) :
    Event.incompleteCode off ∈ s.out := by
  unfold threeBytes at hret h
  dsimp only at hret h
  split_ifs at hret h
  all_goals
    first
    | simpa [emit_out, fgetc_out, incr_out] using h
    | simpa [emit_out, fgetc_out, incr_out] using lookupOrUnknown_no_incomplete _ _ _ _ _ h

theorem fourBytes_no_incomplete (table : List CodePoint) (code : Nat) (s : Io)
    (hret : (fourBytes table code s).1 = true) (off : Int)
    (h : Event.incompleteCode off ∈ (fourBytes table code s).2.out) :
    Event.incompleteCode off ∈ s.out := by
  unfold fourBytes at hret h
  dsimp only at hret h
  split_ifs at hret h
  all_goals
    first
    | simpa [emit_out, fgetc_out, incr_out] using h
    | simpa [emit_out, fgetc_out, incr_out] using lookupOrUnknown_no_incomplete _ _ _ _ _ h

theorem loopBody_no_incomplete (table : List CodePoint) (code : Nat) (s : Io)
    (hret : (loopBody table code s).1 = true) (off : Int)
    (h : Event.incompleteCode off ∈ (loopBody table code s).2.out) :
    Event.incompleteCode off ∈ s.out := by
  cases hc : classify code <;> simp only [loopBody, hc] at hret h
  · exact fourBytes_no_incomplete table code s hret off h
  · exact threeBytes_no_incomplete table code s hret off h
  · exact twoBytes_no_incomplete table code s hret off h
  · exact lookupOrUnknown_no_incomplete _ _ _ _ _ (by simpa [incr_out] using h)
  · simpa [emit_out, incr_out] using h

/-- While the loop of `main` is running, no "Incomplete code" has been written. -/
theorem loopHead_no_incomplete (table : List CodePoint) (input : List (Fin 256)) :
    ∀ (n code : Nat) (s : Io), loopHead table input n = some (code, s) →
      ∀ off : Int, Event.incompleteCode off ∉ s.out := by
  intro n
  induction n with
  | zero =>
    intro code s h off
    simp only [loopHead, Option.some.injEq] at h
    have hs : (fgetc (initial input)).2 = s := by rw [h]
    rw [← hs, fgetc_out]
    simp [initial]
  | succ n ih =>
    intro code s h off
    simp only [loopHead] at h
    cases h0 : loopHead table input n with
    | none => simp [h0] at h
    | some p =>
      obtain ⟨code0, s0⟩ := p
      simp only [h0] at h
      by_cases hc : code0 ≠ EOF
      · rw [if_pos hc] at h
        by_cases hb : (loopBody table code0 s0).1 = true
        · rw [if_pos hb] at h
          simp only [Option.some.injEq] at h
          have hs : (fgetc (loopBody table code0 s0).2).2 = s := by rw [h]
          rw [← hs, fgetc_out]
          intro hmem
          exact ih code0 s0 h0 off (loopBody_no_incomplete table code0 s0 hb off hmem)
        · rw [if_neg hb] at h
          exact absurd h (by simp)
      · rw [if_neg hc] at h
        exact absurd h (by simp)

/-- When the body of the loop ends with `break`, the state it leaves is the
final state of the run. -/
theorem main_of_break (table : List CodePoint) (input : List (Fin 256)) (k : Nat)
    (code : Nat) (s : Io) (hlead : AwaitingLead table input k code s) (s2 : Io)
    (hbody : loopBody table code s = (false, s2)) : main table input = some s2 := by
  have hlt := awaitingLead_lt table input k code s hlead
  obtain ⟨n, _, hhead, _, _⟩ := hlead
  have hne : code ≠ EOF := by
    simp only [EOF]
    omega
  rw [main_eq_of_loopHead table input n code s hhead (s.input.length + 1 + 1) (by omega)
    (fun _ => by omega)]
  unfold mainLoop
  simp only [if_pos hne, hbody, Bool.false_eq_true, if_false]

/-- A bound that leaves room for one iteration per unread byte is enough for
the loop of `main`. -/
theorem mainLoop_terminates (table : List CodePoint) :
    ∀ (fuel code : Nat) (s : Io), 1 ≤ fuel → (code ≠ EOF → s.input.length + 2 ≤ fuel) →
      (mainLoop table fuel code s).isSome = true := by
  intro fuel
  induction fuel with
  | zero => intro _ _ h; omega
  | succ f ih =>
    intro code s _ hf
    unfold mainLoop
    by_cases hc : code ≠ EOF
    · simp only [if_pos hc]
      by_cases hr : (loopBody table code s).1 = true
      · simp only [if_pos hr]
        have hlen := hf hc
        obtain ⟨m, hm, _⟩ := loopBody_consumes table code s
        have hshort : (loopBody table code s).2.input.length ≤ s.input.length := by
          rw [hm, List.length_drop]; omega
        refine ih _ _ (by omega) ?_
        intro hne
        have hnonempty : (loopBody table code s).2.input ≠ [] :=
          fun hnil => hne (fgetc_eof_of_nil _ hnil)
        have hpos := List.length_pos.mpr hnonempty
        rw [fgetc_input, List.length_drop]
        omega
      · simp only [if_neg hr, Option.isSome_some]
    · simp only [if_neg hc, Option.isSome_some]

/-- The run of `main` ends on every input: `length + 1` iterations are enough. -/
theorem main_terminates (table : List CodePoint) (input : List (Fin 256)) :
    (main table input).isSome = true := by
  unfold main
  refine mainLoop_terminates table _ _ _ (by omega) ?_
  intro hne
  have hnonempty : (initial input).input ≠ [] := fun hnil => hne (fgetc_eof_of_nil _ hnil)
  have hpos := List.length_pos.mpr hnonempty
  rw [fgetc_input, List.length_drop]
  simp only [initial] at hpos ⊢
  omega

/-! ## Building the table -/

theorem comparator_le_zero_iff (p q : CodePoint) : comparator p q ≤ 0 ↔ p.code ≤ q.code := by
  unfold comparator
  simp only
  split_ifs <;> constructor <;> intro h <;> omega

theorem loadTableLoop_codepoints (parsed : List CodePoint) :
    ∀ list : CodePointList,
      (loadTableLoop list parsed).codepoints = list.codepoints ++ parsed := by
  induction parsed with
  | nil => intro list; simp [loadTableLoop]
  | cons c rest ih =>
    intro list
    have hgrow : (grow list).codepoints = list.codepoints := by
      unfold grow; split_ifs <;> rfl
    simp only [loadTableLoop, ih, store, hgrow, List.append_assoc, List.singleton_append]

theorem loadTableLoop_length (parsed : List CodePoint) :
    ∀ list : CodePointList,
      (loadTableLoop list parsed).length = list.length + parsed.length := by
  induction parsed with
  | nil => intro list; simp [loadTableLoop]
  | cons c rest ih =>
    intro list
    have hgrow : (grow list).length = list.length := by
      unfold grow; split_ifs <;> rfl
    simp only [loadTableLoop, ih, store, hgrow, List.length_cons]
    omega

/-- The growth policy: after any appends the length is at most the capacity
less one, the capacity is `5 * 2 ^ j`, and it is at most twice the length
(or still 5). -/
theorem loadTableLoop_capacity (parsed : List CodePoint) :
    ∀ list : CodePointList,
      (list.length + 1 ≤ list.capacity ∧ (∃ j : Nat, list.capacity = 5 * 2 ^ j) ∧
        list.capacity ≤ max 5 (2 * list.length)) →
      ((loadTableLoop list parsed).length + 1 ≤ (loadTableLoop list parsed).capacity ∧
        (∃ j : Nat, (loadTableLoop list parsed).capacity = 5 * 2 ^ j) ∧
        (loadTableLoop list parsed).capacity ≤ max 5 (2 * (loadTableLoop list parsed).length)) := by
  induction parsed with
  | nil => intro list h; simpa [loadTableLoop] using h
  | cons c rest ih =>
    intro list h
    obtain ⟨h1, ⟨j, hj⟩, h3⟩ := h
    simp only [loadTableLoop]
    apply ih
    unfold grow store
    by_cases hfull : (list.length : Int) ≥ (list.capacity : Int) - 1
    · simp only [if_pos hfull]
      refine ⟨by omega, ⟨j + 1, by rw [hj, pow_succ]; ring⟩, ?_⟩
      have : list.capacity * 2 ≤ 2 * (list.length + 1) := by omega
      exact le_trans this (le_max_right _ _)
    · simp only [if_neg hfull]
      refine ⟨by omega, ⟨j, hj⟩, ?_⟩
      exact le_trans h3 (max_le_max (le_refl _) (by omega))

theorem emptyList_capacity :
    emptyList.length + 1 ≤ emptyList.capacity ∧ (∃ j : Nat, emptyList.capacity = 5 * 2 ^ j) ∧
      emptyList.capacity ≤ max 5 (2 * emptyList.length) :=
  ⟨by decide, ⟨0, by decide⟩, by decide⟩

theorem insertionQsort_sorts : SortsByComparator insertionQsort := by
  intro l
  haveI : IsTotal CodePoint (fun p q => comparator p q ≤ 0) :=
    ⟨fun p q => by
      rw [comparator_le_zero_iff, comparator_le_zero_iff]
      exact Nat.le_total _ _⟩
  haveI : IsTrans CodePoint (fun p q => comparator p q ≤ 0) :=
    ⟨fun p q r h1 h2 => by
      rw [comparator_le_zero_iff] at h1 h2 ⊢
      exact Nat.le_trans h1 h2⟩
  exact ⟨List.perm_insertionSort _ l, List.sorted_insertionSort _ l⟩

theorem loadTable_perm (qsort : List CodePoint → List CodePoint)
    (hqsort : SortsByComparator qsort) (parsed : List CodePoint) :
    (loadTable qsort parsed).codepoints.Perm parsed := by
  have h := (hqsort (loadTableLoop emptyList parsed).codepoints).1
  rw [loadTableLoop_codepoints] at h
  simpa [loadTable, loadTableLoop_codepoints, emptyList] using h

theorem loadTable_sorted (qsort : List CodePoint → List CodePoint)
    (hqsort : SortsByComparator qsort) (parsed : List CodePoint) :
    (loadTable qsort parsed).codepoints.Pairwise (fun p q => p.code ≤ q.code) := by
  have h := (hqsort (loadTableLoop emptyList parsed).codepoints).2
  refine List.Pairwise.imp ?_ h
  intro p q hpq
  exact (comparator_le_zero_iff p q).mp hpq

theorem reportTable_of_mem (list : List CodePoint)
    (hsorted : list.Pairwise (fun p q => p.code ≤ q.code))
    (hdistinct : (list.map CodePoint.code).Nodup) (p : CodePoint) (hp : p ∈ list) :
    reportTable list p.code = LookupResult.found p.description := by
  obtain ⟨i, hi, hget⟩ := List.getElem_of_mem hp
  have h := reportTable_at_index list hsorted hdistinct i hi
  rw [hget] at h
  exact h

theorem reportTable_loadTable (qsort : List CodePoint → List CodePoint)
    (hqsort : SortsByComparator qsort) (pairs : List CodePoint) (hne : pairs ≠ [])
    (hdistinct : (pairs.map CodePoint.code).Nodup) (c : Nat) :
    (∀ p ∈ pairs, p.code = c →
      reportTable (loadTable qsort pairs).codepoints c = LookupResult.found p.description) ∧
    ((∀ p ∈ pairs, p.code ≠ c) →
      reportTable (loadTable qsort pairs).codepoints c = LookupResult.notFound) := by
  have hperm := loadTable_perm qsort hqsort pairs
  have hsorted := loadTable_sorted qsort hqsort pairs
  have hnodup : ((loadTable qsort pairs).codepoints.map CodePoint.code).Nodup :=
    ((hperm.map CodePoint.code).nodup_iff).mpr hdistinct
  constructor
  · intro p hp hc
    rw [← hc]
    exact reportTable_of_mem _ hsorted hnodup p (hperm.mem_iff.mpr hp)
  · intro habsent
    have hne2 : (loadTable qsort pairs).codepoints ≠ [] := by
      intro hnil
      rw [hnil] at hperm
      exact hne (List.Perm.nil_eq hperm).symm
    exact reportTable_of_absent _ hne2 c (fun p hp => habsent p (hperm.mem_iff.mp hp))

theorem loadTableLoop_append (list : CodePointList) (appended : List CodePoint) (c : CodePoint) :
    loadTableLoop list (appended ++ [c]) = store (grow (loadTableLoop list appended)) c := by
  induction appended generalizing list with
  | nil => rfl
  | cons a rest ih => exact ih (store (grow list) a)

/-! ## The value a sequence is decoded to -/

/-- With all its continuation bytes present and accepted, a sequence is
reported as "Invalid encoding" or looked up, with the value `decoded`. -/
theorem decoded_body (table : List CodePoint) (code : Nat) (s : Io)
    (conts tail : List (Fin 256))
    (hN : (classify code).continuationBytes = some conts.length) (hpos : 1 ≤ conts.length)
    (hin : s.input = conts ++ tail) (hacc : ∀ c ∈ conts, 0x80 ≤ c.val) :
    loopBody table code s =
      if decoded code conts < shorterLimit conts.length then
        (true, { input := tail, location := s.location + 1 + conts.length,
                 out := s.out ++ [Event.invalidEncoding (decoded code conts) s.location],
                 lookups := s.lookups })
      else
        lookupOrUnknown table (decoded code conts) s.location
          { input := tail, location := s.location + 1 + conts.length, out := s.out,
            lookups := s.lookups } := by
  cases hc : classify code <;>
    simp only [hc, LeadClass.continuationBytes, Option.some.injEq] at hN
  · obtain ⟨c1, c2, c3, rfl⟩ := List.length_eq_three.mp hN.symm
    simp only [loopBody, hc]
    rw [fourBytes_ok table code s c1 c2 c3 tail hin (hacc c1 (by simp)) (hacc c2 (by simp))
      (hacc c3 (by simp))]
    simp [decoded, shorterLimit]
    rw [show s.location + 1 + 3 = s.location + 4 by omega]
  · obtain ⟨c1, c2, rfl⟩ := List.length_eq_two.mp hN.symm
    simp only [loopBody, hc]
    rw [threeBytes_ok table code s c1 c2 tail hin (hacc c1 (by simp)) (hacc c2 (by simp))]
    simp [decoded, shorterLimit]
    rw [show s.location + 1 + 2 = s.location + 3 by omega]
  · obtain ⟨c1, rfl⟩ := List.length_eq_one.mp hN.symm
    simp only [loopBody, hc]
    rw [twoBytes_ok table code s c1 tail hin (hacc c1 (by simp))]
    simp [decoded, shorterLimit]
    rw [show s.location + 1 + 1 = s.location + 2 by omega]
  · omega
  · cases hN

/-! ## The offsets of the diagnostics -/

theorem byte_at_offset (input : List (Fin 256)) (k : Nat) (l : List (Fin 256))
    (hdrop : input.drop k = l) (i : Nat) : input[k + i]? = l[i]? := by
  rw [← hdrop, List.getElem?_drop]

theorem accurate_invalidByte (input : List (Fin 256)) (k : Nat) (l : List (Fin 256))
    (hdrop : input.drop k = l) (i : Nat) (c : Fin 256) (hc : l[i]? = some c) :
    (Event.invalidByte c.val ((k : Int) + (i : Int))).accurateAt input k := by
  have hnat : ((k : Int) + (i : Int)).toNat = k + i := by
    rw [← Int.natCast_add, Int.toNat_natCast]
  refine ⟨by omega, ?_⟩
  rw [hnat, byte_at_offset input k l hdrop i, hc]
  rfl

theorem accurate_singleton (input : List (Fin 256)) (k : Nat) (e : Event)
    (h : e.accurateAt input k) : ∀ x ∈ [e], x.accurateAt input k := by
  intro x hx
  rw [List.mem_singleton.mp hx]
  exact h

theorem lookupOrUnknown_accurate (table : List CodePoint) (input : List (Fin 256)) (k : Nat)
    (hex : Nat) (s : Io) :
    ∃ evs : List Event, (lookupOrUnknown table hex (k : Int) s).2.out = s.out ++ evs ∧
      ∀ e ∈ evs, e.accurateAt input k := by
  unfold lookupOrUnknown
  split
  · exact ⟨[_], rfl, accurate_singleton input k _ trivial⟩
  · exact ⟨[_], rfl, accurate_singleton input k _ rfl⟩
  · exact ⟨[_], rfl, accurate_singleton input k _ trivial⟩
  · exact ⟨[_], rfl, accurate_singleton input k _ trivial⟩

theorem twoBytes_accurate (table : List CodePoint) (input : List (Fin 256)) (k : Nat)
    (code : Nat) (s : Io) (hloc : s.location = (k : Int)) (b : Fin 256)
    (hdrop : input.drop k = b :: s.input) :
    ∃ evs : List Event, (twoBytes table code s).2.out = s.out ++ evs ∧
      ∀ e ∈ evs, e.accurateAt input k := by
  rcases hs : s.input with _ | ⟨c1, t1⟩
  · rw [twoBytes_eof table code s hs, hloc]
    exact ⟨[_], rfl, accurate_singleton input k _ rfl⟩
  · rw [hs] at hdrop
    by_cases h1 : c1.val < 0x80
    · rw [twoBytes_bad table code s c1 t1 hs h1, hloc]
      exact ⟨[_], rfl, accurate_singleton input k _
        (by simpa using accurate_invalidByte input k _ hdrop 1 c1 (by simp))⟩
    · rw [twoBytes_ok table code s c1 t1 hs (by omega), hloc]
      split_ifs
      · exact ⟨[_], rfl, accurate_singleton input k _ rfl⟩
      · exact lookupOrUnknown_accurate table input k _ _

theorem threeBytes_accurate (table : List CodePoint) (input : List (Fin 256)) (k : Nat)
    (code : Nat) (s : Io) (hloc : s.location = (k : Int)) (b : Fin 256)
    (hdrop : input.drop k = b :: s.input) :
    ∃ evs : List Event, (threeBytes table code s).2.out = s.out ++ evs ∧
      ∀ e ∈ evs, e.accurateAt input k := by
  rcases hs : s.input with _ | ⟨c1, _ | ⟨c2, t2⟩⟩
  · rw [threeBytes_eof1 table code s hs, hloc]
    exact ⟨[_], rfl, accurate_singleton input k _ rfl⟩
  · rw [hs] at hdrop
    by_cases h1 : c1.val < 0x80
    · rw [threeBytes_bad1 table code s c1 [] hs h1, hloc]
      exact ⟨[_], rfl, accurate_singleton input k _
        (by simpa using accurate_invalidByte input k _ hdrop 1 c1 (by simp))⟩
    · rw [threeBytes_eof2 table code s c1 hs (by omega), hloc]
      exact ⟨[_], rfl, accurate_singleton input k _ rfl⟩
  · rw [hs] at hdrop
    by_cases h1 : c1.val < 0x80
    · rw [threeBytes_bad1 table code s c1 (c2 :: t2) hs h1, hloc]
      exact ⟨[_], rfl, accurate_singleton input k _
        (by simpa using accurate_invalidByte input k _ hdrop 1 c1 (by simp))⟩
    · by_cases h2 : c2.val < 0x80
      · rw [threeBytes_bad2 table code s c1 c2 t2 hs (by omega) h2, hloc]
        exact ⟨[_], rfl, accurate_singleton input k _
          (by simpa using accurate_invalidByte input k _ hdrop 2 c2 (by simp))⟩
      · rw [threeBytes_ok table code s c1 c2 t2 hs (by omega) (by omega), hloc]
        split_ifs
        · exact ⟨[_], rfl, accurate_singleton input k _ rfl⟩
        · exact lookupOrUnknown_accurate table input k _ _

theorem fourBytes_accurate (table : List CodePoint) (input : List (Fin 256)) (k : Nat)
    (code : Nat) (s : Io) (hloc : s.location = (k : Int)) (b : Fin 256)
    (hdrop : input.drop k = b :: s.input) :
    ∃ evs : List Event, (fourBytes table code s).2.out = s.out ++ evs ∧
      ∀ e ∈ evs, e.accurateAt input k := by
  rcases hs : s.input with _ | ⟨c1, t1⟩
  · rw [fourBytes_eof1 table code s hs, hloc]
    exact ⟨[_], rfl, accurate_singleton input k _ rfl⟩
  rw [hs] at hdrop
  by_cases h1 : c1.val < 0x80
  · rw [fourBytes_bad1 table code s c1 t1 hs h1, hloc]
    exact ⟨[_], rfl, accurate_singleton input k _
      (by simpa using accurate_invalidByte input k _ hdrop 1 c1 (by simp))⟩
  rcases t1 with _ | ⟨c2, t2⟩
  · rw [fourBytes_eof2 table code s c1 hs (by omega), hloc]
    exact ⟨[_], rfl, accurate_singleton input k _ rfl⟩
  by_cases h2 : c2.val < 0x80
  · rw [fourBytes_bad2 table code s c1 c2 t2 hs (by omega) h2, hloc]
    exact ⟨[_], rfl, accurate_singleton input k _
      (by simpa using accurate_invalidByte input k _ hdrop 2 c2 (by simp))⟩
  rcases t2 with _ | ⟨c3, t3⟩
  · rw [fourBytes_eof3 table code s c1 c2 hs (by omega) (by omega), hloc]
    exact ⟨[_], rfl, accurate_singleton input k _ rfl⟩
  by_cases h3 : c3.val < 0x80
  · rw [fourBytes_bad3 table code s c1 c2 c3 t3 hs (by omega) (by omega) h3, hloc]
    exact ⟨[_], rfl, accurate_singleton input k _
      (by simpa using accurate_invalidByte input k _ hdrop 3 c3 (by simp))⟩
  rw [fourBytes_ok table code s c1 c2 c3 t3 hs (by omega) (by omega) (by omega), hloc]
  split_ifs
  · exact ⟨[_], rfl, accurate_singleton input k _ rfl⟩
  · exact lookupOrUnknown_accurate table input k _ _

/-- The lines one pass of the loop writes carry the right offsets. -/
theorem loopBody_accurate (table : List CodePoint) (input : List (Fin 256)) (k : Nat)
    (code : Nat) (s : Io) (hloc : s.location = (k : Int)) (b : Fin 256) (hcode : code = b.val)
    (hdrop : input.drop k = b :: s.input) :
    ∃ evs : List Event, (loopBody table code s).2.out = s.out ++ evs ∧
      ∀ e ∈ evs, e.accurateAt input k := by
  cases hc : classify code <;> simp only [loopBody, hc]
  · exact fourBytes_accurate table input k code s hloc b hdrop
  · exact threeBytes_accurate table input k code s hloc b hdrop
  · exact twoBytes_accurate table input k code s hloc b hdrop
  · rw [hloc, incr_out]
    exact lookupOrUnknown_accurate table input k _ _
  · rw [hloc, incr_out, emit_out, hcode]
    exact ⟨[_], rfl, accurate_singleton input k _
      (by simpa using accurate_invalidByte input k _ hdrop 0 b (by simp))⟩

/-- A loop head that holds a byte is a lead position. -/
theorem awaitingLead_of_loopHead (table : List CodePoint) (input : List (Fin 256)) (n : Nat)
    (code : Nat) (s : Io) (hhead : loopHead table input n = some (code, s)) (hne : code ≠ EOF) :
    ∃ k : Nat, AwaitingLead table input k code s := by
  rcases loopHead_synced table input n code s hhead with ⟨he, _⟩ | ⟨pre, b, hcode, hin, _⟩
  · exact absurd he hne
  · refine ⟨pre.length, n, b, hhead, hcode, ?_⟩
    rw [hin, List.drop_left]

/-- The final state of the run is a loop head at the end of the input, or
what the body leaves when it ends the loop with `break`. -/
theorem mainLoop_final (table : List CodePoint) (input : List (Fin 256)) (final : Io) :
    ∀ (fuel n code : Nat) (s : Io), loopHead table input n = some (code, s) →
      mainLoop table fuel code s = some final →
      ∃ (n2 code2 : Nat) (s2 : Io), loopHead table input n2 = some (code2, s2) ∧
        ((code2 = EOF ∧ final = s2) ∨
          (code2 ≠ EOF ∧ loopBody table code2 s2 = (false, final))) := by
  intro fuel
  induction fuel with
  | zero => intro n code s _ h; simp [mainLoop] at h
  | succ f ih =>
    intro n code s hhead hrun
    unfold mainLoop at hrun
    by_cases hc : code ≠ EOF
    · rw [if_pos hc] at hrun
      by_cases hr : (loopBody table code s).1 = true
      · simp only [if_pos hr] at hrun
        refine ih (n + 1) _ _ ?_ hrun
        simp only [loopHead, hhead, if_pos hc, if_pos hr]
      · simp only [if_neg hr, Option.some.injEq] at hrun
        refine ⟨n, code, s, hhead, Or.inr ⟨hc, ?_⟩⟩
        rw [← hrun]
        have hfalse : (loopBody table code s).1 = false := by
          cases hb : (loopBody table code s).1
          · rfl
          · exact absurd hb hr
        exact Prod.ext hfalse rfl
    · rw [if_neg hc] at hrun
      simp only [Option.some.injEq] at hrun
      exact ⟨n, code, s, hhead, Or.inl ⟨not_not.mp hc, hrun.symm⟩⟩

/-- Every line written so far at a loop head carries the right offset for the
lead position it was written for. -/
theorem loopHead_accurate (table : List CodePoint) (input : List (Fin 256)) :
    ∀ (n code : Nat) (s : Io), loopHead table input n = some (code, s) →
      ∀ e ∈ s.out, ∃ (k code2 : Nat) (s2 : Io),
        AwaitingLead table input k code2 s2 ∧ e.accurateAt input k := by
  intro n
  induction n with
  | zero =>
    intro code s h e he
    simp only [loopHead, Option.some.injEq] at h
    have hs : (fgetc (initial input)).2 = s := by rw [h]
    rw [← hs, fgetc_out] at he
    simp [initial] at he
  | succ n ih =>
    intro code s h e he
    simp only [loopHead] at h
    cases h0 : loopHead table input n with
    | none => simp [h0] at h
    | some p =>
      obtain ⟨code0, s0⟩ := p
      simp only [h0] at h
      by_cases hc : code0 ≠ EOF
      · rw [if_pos hc] at h
        by_cases hb : (loopBody table code0 s0).1 = true
        · rw [if_pos hb] at h
          simp only [Option.some.injEq] at h
          have hs : (fgetc (loopBody table code0 s0).2).2 = s := by rw [h]
          rw [← hs, fgetc_out] at he
          obtain ⟨k, hlead⟩ := awaitingLead_of_loopHead table input n code0 s0 h0 hc
          have hloc := awaitingLead_location table input k code0 s0 hlead
          obtain ⟨_, b, _, hcode, hdrop⟩ := hlead
          obtain ⟨evs, hout, hacc⟩ := loopBody_accurate table input k code0 s0 hloc b hcode hdrop
          rw [hout, List.mem_append] at he
          rcases he with he | he
          · exact ih code0 s0 h0 e he
          · exact ⟨k, code0, s0, ⟨n, b, h0, hcode, hdrop⟩, hacc e he⟩
        · rw [if_neg hb] at h
          exact absurd h (by simp)
      · rw [if_neg hc] at h
        exact absurd h (by simp)

/-- Every line of a run carries the right offset for the lead position it was
written for. -/
theorem main_accurate (table : List CodePoint) (input : List (Fin 256)) (final : Io)
    (hrun : main table input = some final) :
    ∀ e ∈ final.out, ∃ (k code2 : Nat) (s2 : Io),
      AwaitingLead table input k code2 s2 ∧ e.accurateAt input k := by
  have hstart : loopHead table input 0 = some ((fgetc (initial input)).1, (fgetc (initial input)).2) :=
    rfl
  obtain ⟨n2, code2, s2, hhead, hend⟩ :=
    mainLoop_final table input final (input.length + 1) 0 _ _ hstart hrun
  rcases hend with ⟨_, hfin⟩ | ⟨hne, hbody⟩
  · rw [hfin]
    exact loopHead_accurate table input n2 code2 s2 hhead
  · intro e he
    obtain ⟨k, hlead⟩ := awaitingLead_of_loopHead table input n2 code2 s2 hhead hne
    have hloc := awaitingLead_location table input k code2 s2 hlead
    obtain ⟨_, b, _, hcode, hdrop⟩ := hlead
    obtain ⟨evs, hout, hacc⟩ := loopBody_accurate table input k code2 s2 hloc b hcode hdrop
    rw [hbody] at hout
    simp only at hout
    rw [hout, List.mem_append] at he
    rcases he with he | he
    · exact loopHead_accurate table input n2 code2 s2 hhead e he
    · exact ⟨k, code2, s2, ⟨n2, b, hhead, hcode, hdrop⟩, hacc e he⟩

/-! ## The claims -/

/-- C1: on a table sorted ascending by code with pairwise distinct codes,
`reportTable` called with the code of the entry at any index `i` returns true
and prints exactly the description of that entry. -/
theorem reportTable_finds_entry (list : List CodePoint)
    (hsorted : list.Pairwise (fun p q => p.code ≤ q.code))
    (hdistinct : (list.map CodePoint.code).Nodup)
    (i : Nat) (hi : i < list.length) :
    reportTable list (list[i]).code = LookupResult.found (list[i]).description := by
  have hs := strictly_ascending list hsorted hdistinct
  unfold reportTable
  simp only [Nat.zero_add]
  have := reportTableLoop_found list hs i hi (list.length + 1) 0 list.length
    (Nat.zero_le _) hi (Nat.le_refl _) (by omega)
  simpa using this

theorem reportTable_finds_entry_witness :
    reportTable exampleTable 0xE9 = LookupResult.found "LATIN SMALL LETTER E WITH ACUTE" :=
  reportTable_finds_entry exampleTable (by decide) (by decide) 1 (by decide)

/-- C2: on a non-empty table (sorted or not), `reportTable` called with a
code that no entry carries returns false and prints nothing. -/
theorem reportTable_absent_code (list : List CodePoint) (hne : list ≠ [])
    (code : Nat) (habsent : ∀ p ∈ list, p.code ≠ code) :
    reportTable list code = LookupResult.notFound := by
  have hpos : 0 < list.length := List.length_pos.mpr hne
  unfold reportTable
  simp only [Nat.zero_add]
  have := reportTableLoop_notFound list code habsent (list.length + 1) 0 list.length
    hpos (Nat.le_refl _) (by omega)
  simpa using this

theorem reportTable_absent_code_witness :
    reportTable exampleTable 0x42 = LookupResult.notFound :=
  reportTable_absent_code exampleTable (by decide) 0x42 (by decide)

/-- C3: a value `v` from `0x80` to `0x1FFFFF` written in its shortest UTF-8 form
at an offset `k` where the decoder is awaiting a lead byte is decoded to `v`:
exactly the bytes of the form are consumed, `reportTable` is called once, with
`v`, and the one line written is the description of the entry with code `v`
or, when there is none, "Unknown code" with `v` and offset `k` (so none of
"Invalid encoding", "Invalid byte", "Incomplete code"). -/
theorem shortest_form_decoded (table : List CodePoint)
    (hsorted : table.Pairwise (fun p q => p.code ≤ q.code))
    (hdistinct : (table.map CodePoint.code).Nodup) (hne : table ≠ [])
    (input : List (Fin 256)) (k : Nat) (code : Nat) (s : Io)
    (hlead : AwaitingLead table input k code s)
    (v : Nat) (hlow : 0x80 ≤ v) (hhigh : v ≤ 0x1FFFFF) (tail : List (Fin 256))
    (hbytes : input.drop k = utf8Encode v ++ tail) :
    ∃ ev : Event,
      loopBody table code s =
        (true, { input := tail, location := (k : Int) + (utf8Encode v).length,
                 out := s.out ++ [ev], lookups := s.lookups ++ [v] }) ∧
      ((∃ p ∈ table, p.code = v ∧ ev = Event.name p.description) ∨
       ((∀ p ∈ table, p.code ≠ v) ∧ ev = Event.unknownCode v k)) := by
  have hloc := awaitingLead_location table input k code s hlead
  have hlt := awaitingLead_lt table input k code s hlead
  by_cases h2 : v < 0x800
  · have henc : utf8Encode v = [Fin.ofNat (0xC0 + v / 0x40), Fin.ofNat (0x80 + v % 0x40)] := by
      simp only [utf8Encode, h2, if_true]
    rw [henc] at hbytes ⊢
    obtain ⟨hcode, hin⟩ := awaitingLead_bytes table input k code s hlead _ _ hbytes
    rw [ofNat_val _ (by omega)] at hcode
    have hc1 : (Fin.ofNat (0x80 + v % 0x40) : Fin 256).val = 0x80 + v % 0x40 :=
      ofNat_val _ (by omega)
    have hbody := twoBytes_ok table code s _ tail hin (by rw [hc1]; omega)
    rw [hc1] at hbody
    have hhex : code % 32 * 64 + (0x80 + v % 0x40) % 64 = v := by omega
    rw [hhex, if_neg (by omega)] at hbody
    obtain ⟨ev, hev, hcases⟩ := lookupOrUnknown_sorted table hsorted hdistinct hne v s.location
      { input := tail, location := s.location + 2, out := s.out, lookups := s.lookups }
    rw [hloc] at hev hcases hbody
    refine ⟨ev, ?_, hcases⟩
    rw [loopBody_twoByte table code s hlt (by omega) (by omega), hbody, hev]
    rfl
  · by_cases h3 : v < 0x10000
    · have henc : utf8Encode v = [Fin.ofNat (0xE0 + v / 0x1000),
          Fin.ofNat (0x80 + v / 0x40 % 0x40), Fin.ofNat (0x80 + v % 0x40)] := by
        simp only [utf8Encode, h2, h3, if_true, if_false]
      rw [henc] at hbytes ⊢
      obtain ⟨hcode, hin⟩ := awaitingLead_bytes table input k code s hlead _ _ hbytes
      rw [ofNat_val _ (by omega)] at hcode
      have hc1 : (Fin.ofNat (0x80 + v / 0x40 % 0x40) : Fin 256).val = 0x80 + v / 0x40 % 0x40 :=
        ofNat_val _ (by omega)
      have hc2 : (Fin.ofNat (0x80 + v % 0x40) : Fin 256).val = 0x80 + v % 0x40 :=
        ofNat_val _ (by omega)
      have hbody := threeBytes_ok table code s _ _ tail hin (by rw [hc1]; omega)
        (by rw [hc2]; omega)
      rw [hc1, hc2] at hbody
      have hhex : (code % 16 * 64 + (0x80 + v / 0x40 % 0x40) % 64) * 64
          + (0x80 + v % 0x40) % 64 = v := by omega
      rw [hhex, if_neg (by omega)] at hbody
      obtain ⟨ev, hev, hcases⟩ := lookupOrUnknown_sorted table hsorted hdistinct hne v s.location
        { input := tail, location := s.location + 3, out := s.out, lookups := s.lookups }
      rw [hloc] at hev hcases hbody
      refine ⟨ev, ?_, hcases⟩
      rw [loopBody_threeByte table code s hlt (by omega) (by omega), hbody, hev]
      rfl
    · have henc : utf8Encode v = [Fin.ofNat (0xF0 + v / 0x40000),
          Fin.ofNat (0x80 + v / 0x1000 % 0x40), Fin.ofNat (0x80 + v / 0x40 % 0x40),
          Fin.ofNat (0x80 + v % 0x40)] := by
        simp only [utf8Encode, h2, h3, if_false]
      rw [henc] at hbytes ⊢
      obtain ⟨hcode, hin⟩ := awaitingLead_bytes table input k code s hlead _ _ hbytes
      rw [ofNat_val _ (by omega)] at hcode
      have hc1 : (Fin.ofNat (0x80 + v / 0x1000 % 0x40) : Fin 256).val
          = 0x80 + v / 0x1000 % 0x40 := ofNat_val _ (by omega)
      have hc2 : (Fin.ofNat (0x80 + v / 0x40 % 0x40) : Fin 256).val = 0x80 + v / 0x40 % 0x40 :=
        ofNat_val _ (by omega)
      have hc3 : (Fin.ofNat (0x80 + v % 0x40) : Fin 256).val = 0x80 + v % 0x40 :=
        ofNat_val _ (by omega)
      have hbody := fourBytes_ok table code s _ _ _ tail hin (by rw [hc1]; omega)
        (by rw [hc2]; omega) (by rw [hc3]; omega)
      rw [hc1, hc2, hc3] at hbody
      have hhex : ((code % 16 * 64 + (0x80 + v / 0x1000 % 0x40) % 64) * 64
          + (0x80 + v / 0x40 % 0x40) % 64) * 64 + (0x80 + v % 0x40) % 64 = v := by omega
      rw [hhex, if_neg (by omega)] at hbody
      obtain ⟨ev, hev, hcases⟩ := lookupOrUnknown_sorted table hsorted hdistinct hne v s.location
        { input := tail, location := s.location + 4, out := s.out, lookups := s.lookups }
      rw [hloc] at hev hcases hbody
      refine ⟨ev, ?_, hcases⟩
      rw [loopBody_fourByte table code s hlt (by omega), hbody, hev]
      rfl

theorem shortest_form_decoded_witness :
    main exampleTable [0x41, 0xC3, 0xA9] =
      some ⟨[], 3, [Event.name "LATIN CAPITAL LETTER A",
        Event.name "LATIN SMALL LETTER E WITH ACUTE"], [0x41, 0xE9]⟩ ∧
    ∃ ev : Event,
      loopBody exampleTable 0xC3 ⟨[0xA9], 1, [Event.name "LATIN CAPITAL LETTER A"], [0x41]⟩ =
        (true, { input := [], location := ((1 : Nat) : Int) + (utf8Encode 0xE9).length,
                 out := [Event.name "LATIN CAPITAL LETTER A"] ++ [ev],
                 lookups := [0x41] ++ [0xE9] }) ∧
      ((∃ p ∈ exampleTable, p.code = 0xE9 ∧ ev = Event.name p.description) ∨
       ((∀ p ∈ exampleTable, p.code ≠ 0xE9) ∧ ev = Event.unknownCode 0xE9 ((1 : Nat) : Int))) :=
  ⟨by decide,
   shortest_form_decoded exampleTable (by decide) (by decide) (by decide)
    [0x41, 0xC3, 0xA9] 1 0xC3 ⟨[0xA9], 1, [Event.name "LATIN CAPITAL LETTER A"], [0x41]⟩
    ⟨1, 0xC3, rfl, rfl, rfl⟩ 0xE9 (by decide) (by decide) [] (by decide)⟩

/-- C4: a structurally valid two-, three- or four-byte sequence at an offset `k`
where the decoder is awaiting a lead byte, whose value fits a shorter encoding,
is reported as "Invalid encoding" with that value and offset `k`; all its bytes
are consumed, `reportTable` is not called and no name is printed, whatever the
table holds. -/
theorem overlong_rejected (table : List CodePoint) (input : List (Fin 256)) (k : Nat)
    (code : Nat) (s : Io) (hlead : AwaitingLead table input k code s)
    (lead : Fin 256) (conts tail : List (Fin 256))
    (hbytes : input.drop k = lead :: conts ++ tail)
    (hvalid : StructurallyValid lead conts)
    (hoverlong : reconstructed lead conts < shorterLimit conts.length) :
    loopBody table code s =
      (true, { input := tail, location := (k : Int) + 1 + conts.length,
               out := s.out ++ [Event.invalidEncoding (reconstructed lead conts) k],
               lookups := s.lookups }) := by
  have hloc := awaitingLead_location table input k code s hlead
  have hlt := awaitingLead_lt table input k code s hlead
  obtain ⟨hcode, hin⟩ := awaitingLead_bytes table input k code s hlead _ _ hbytes
  obtain ⟨hshape, hconts⟩ := hvalid
  rcases hshape with ⟨hlen, h1, h2⟩ | ⟨hlen, h1, h2⟩ | ⟨hlen, h1, h2⟩
  · obtain ⟨c1, rfl⟩ := List.length_eq_one.mp hlen
    have hc1 := (hconts c1 (by simp)).1
    have hbody := twoBytes_ok table code s c1 tail hin hc1
    simp only [reconstructed, shorterLimit, List.length_singleton, List.foldl_cons,
      List.foldl_nil, if_true] at hoverlong ⊢
    rw [← hcode] at hoverlong ⊢
    rw [show (6 - 1 : Nat) = 5 from rfl, show (2 : Nat) ^ 5 = 32 from rfl] at hoverlong ⊢
    rw [if_pos hoverlong, hloc] at hbody
    rw [loopBody_twoByte table code s hlt (by omega) (by omega), hbody]
    rfl
  · obtain ⟨c1, c2, rfl⟩ := List.length_eq_two.mp hlen
    have hc1 := (hconts c1 (by simp)).1
    have hc2 := (hconts c2 (by simp)).1
    have hbody := threeBytes_ok table code s c1 c2 tail hin hc1 hc2
    simp only [reconstructed, shorterLimit, List.length_cons, List.length_nil, List.foldl_cons,
      List.foldl_nil] at hoverlong ⊢
    rw [← hcode] at hoverlong ⊢
    simp only [show (6 - (0 + 1 + 1) : Nat) = 4 from rfl, show (2 : Nat) ^ 4 = 16 from rfl,
      show ((0 + 1 + 1 : Nat) = 1) = False from by simp, if_false, if_true] at hoverlong ⊢
    rw [if_pos hoverlong, hloc] at hbody
    rw [loopBody_threeByte table code s hlt (by omega) (by omega), hbody]
    rfl
  · obtain ⟨c1, c2, c3, rfl⟩ := List.length_eq_three.mp hlen
    have hc1 := (hconts c1 (by simp)).1
    have hc2 := (hconts c2 (by simp)).1
    have hc3 := (hconts c3 (by simp)).1
    have hbody := fourBytes_ok table code s c1 c2 c3 tail hin hc1 hc2 hc3
    simp only [reconstructed, shorterLimit, List.length_cons, List.length_nil, List.foldl_cons,
      List.foldl_nil] at hoverlong ⊢
    rw [← hcode] at hoverlong ⊢
    simp only [show (6 - (0 + 1 + 1 + 1) : Nat) = 3 from rfl, show (2 : Nat) ^ 3 = 8 from rfl,
      show ((0 + 1 + 1 + 1 : Nat) = 1) = False from by simp,
      show ((0 + 1 + 1 + 1 : Nat) = 2) = False from by simp, if_false] at hoverlong ⊢
    have hmod : code % 16 = code % 8 := by omega
    rw [hmod, if_pos hoverlong, hloc] at hbody
    rw [loopBody_fourByte table code s hlt (by omega), hbody]
    rfl

set_option maxRecDepth 10000 in
theorem overlong_rejected_witness :
    loopBody tableWithZero 0xC0 ⟨[0x80], 0, [], []⟩ =
      (true, { input := [], location := ((0 : Nat) : Int) + 1 + [(0x80 : Fin 256)].length,
               out := [] ++ [Event.invalidEncoding (reconstructed 0xC0 [0x80]) ((0 : Nat) : Int)],
               lookups := [] }) :=
  overlong_rejected tableWithZero [0xC0, 0x80] 0 0xC0 ⟨[0x80], 0, [], []⟩
    ⟨0, 0xC0, rfl, rfl, rfl⟩ 0xC0 [0x80] [] (by decide) (by decide) (by decide)

/-- C5, the claim as stated fails: in the two-byte sequence `0xC3 0xE9` the byte
at the continuation position, `0xE9`, is not in `0x80 .. 0xBF`, yet no "Invalid
byte" is written; its low 6 bits are used, the value `0xE9` is looked up and a
name is printed. -/
theorem lead_pattern_accepted_as_continuation :
    AwaitingLead exampleTable [0xC3, 0xE9] 0 0xC3 ⟨[0xE9], 0, [], []⟩ ∧
    ¬ ((0x80 : Nat) ≤ 0xE9 ∧ (0xE9 : Nat) ≤ 0xBF) ∧
    loopBody exampleTable 0xC3 ⟨[0xE9], 0, [], []⟩ =
      (true, ⟨[], 2, [Event.name "LATIN SMALL LETTER E WITH ACUTE"], [0xE9]⟩) ∧
    main exampleTable [0xC3, 0xE9] =
      some ⟨[], 2, [Event.name "LATIN SMALL LETTER E WITH ACUTE"], [0xE9]⟩ :=
  ⟨⟨0, 0xC3, rfl, rfl, rfl⟩, by decide, by decide, by decide⟩

/-- C5, amended: in a multi-byte sequence at an offset `k` where the decoder is
awaiting a lead byte, when the earlier continuation bytes are in `0x80 .. 0xBF`
and the byte at some continuation position is present and has its top bit
clear (`0x00 .. 0x7F`), the decoder writes "Invalid byte" with the value and the
offset of that byte, and nothing else: no value is reported and `reportTable`
is not called. -/
theorem bad_continuation_reported (table : List CodePoint) (input : List (Fin 256))
    (k : Nat) (code : Nat) (s : Io) (hlead : AwaitingLead table input k code s)
    (N : Nat) (hN : (classify code).continuationBytes = some N)
    (lead : Fin 256) (good : List (Fin 256)) (bad : Fin 256) (tail : List (Fin 256))
    (hbytes : input.drop k = lead :: good ++ bad :: tail) (hlen : good.length < N)
    (hgood : ∀ c ∈ good, 0x80 ≤ c.val ∧ c.val ≤ 0xBF) (hbad : bad.val < 0x80) :
    ∃ s2 : Io,
      loopBody table code s = (true, s2) ∧
      s2.out = s.out ++ [Event.invalidByte bad.val ((k : Int) + 1 + good.length)] ∧
      s2.lookups = s.lookups := by
  have hloc := awaitingLead_location table input k code s hlead
  obtain ⟨_, hin⟩ := awaitingLead_bytes table input k code s hlead _ _ hbytes
  have hbody := bad_continuation_body table code s N hN good bad tail hin hlen
    (fun c hc => (hgood c hc).1) hbad
  rw [hloc] at hbody
  exact ⟨_, hbody, rfl, rfl⟩

set_option maxRecDepth 10000 in
theorem bad_continuation_reported_witness :
    ∃ s2 : Io,
      loopBody exampleTable 0xE0 ⟨[0x80, 0x41, 0x42], 0, [], []⟩ = (true, s2) ∧
      s2.out = [] ++ [Event.invalidByte (0x41 : Fin 256).val
        (((0 : Nat) : Int) + 1 + [(0x80 : Fin 256)].length)] ∧
      s2.lookups = [] :=
  bad_continuation_reported exampleTable [0xE0, 0x80, 0x41, 0x42] 0 0xE0
    ⟨[0x80, 0x41, 0x42], 0, [], []⟩ ⟨0, 0xE0, rfl, rfl, rfl⟩ 2 (by decide)
    0xE0 [0x80] 0x41 [0x42] (by decide) (by decide) (by decide) (by decide)

/-- C6, the claim as stated fails: in `0xE0 0x41 0x42 0x43` the byte `0x41` at
offset 1 is reported as "Invalid byte"; the byte at offset 2 is then read and
dropped, without being classified or reported, and the next byte classified
as a lead byte is the one at offset 3. -/
theorem byte_after_bad_continuation_dropped :
    loopHead exampleTable [0xE0, 0x41, 0x42, 0x43] 0 =
      some (0xE0, ⟨[0x41, 0x42, 0x43], 0, [], []⟩) ∧
    loopHead exampleTable [0xE0, 0x41, 0x42, 0x43] 1 =
      some (0x43, ⟨[], 3, [Event.invalidByte 0x41 1], []⟩) ∧
    main exampleTable [0xE0, 0x41, 0x42, 0x43] =
      some ⟨[], 4, [Event.invalidByte 0x41 1, Event.unknownCode 0x43 3], [0x43]⟩ :=
  ⟨by decide, by decide, by decide⟩

/-- C6, amended: when the byte at offset `j` of a multi-byte sequence, whose lead
byte at offset `k` announces `N` continuation bytes, is reported as "Invalid
byte" (the continuation bytes before it were accepted, that is had their top
bit set, and it has its top bit clear), the decoder has consumed the bytes up
to offset `k + N` (those between `j` and `k + N` without classifying or
reporting them), and the next byte it classifies as a lead byte is the byte
at offset `k + N + 1`; that is the byte at `j + 1` when the bad byte is at the
last continuation position. -/
theorem bad_continuation_resumes (table : List CodePoint) (input : List (Fin 256))
    (k : Nat) (code : Nat) (s : Io) (hlead : AwaitingLead table input k code s)
    (N : Nat) (hN : (classify code).continuationBytes = some N)
    (lead : Fin 256) (good : List (Fin 256)) (bad : Fin 256) (tail : List (Fin 256))
    (hbytes : input.drop k = lead :: good ++ bad :: tail) (hlen : good.length < N)
    (hgood : ∀ c ∈ good, 0x80 ≤ c.val) (hbad : bad.val < 0x80) :
    loopBody table code s =
      (true, { input := input.drop (k + N + 1), location := (k : Int) + N + 1,
               out := s.out ++ [Event.invalidByte bad.val ((k : Int) + 1 + good.length)],
               lookups := s.lookups }) ∧
    (∀ (c : Fin 256) (rest : List (Fin 256)), input.drop (k + N + 1) = c :: rest →
      AwaitingLead table input (k + N + 1) c.val
        { input := rest, location := (k : Int) + N + 1,
          out := s.out ++ [Event.invalidByte bad.val ((k : Int) + 1 + good.length)],
          lookups := s.lookups }) ∧
    (good.length + 1 = N → k + N + 1 = (k + 1 + good.length) + 1) := by
  have hloc := awaitingLead_location table input k code s hlead
  obtain ⟨_, hin⟩ := awaitingLead_bytes table input k code s hlead _ _ hbytes
  have hbody := bad_continuation_body table code s N hN good bad tail hin hlen hgood hbad
  have hdrop := drop_past_sequence input k lead good bad tail hbytes (N - good.length - 1)
  rw [show k + 1 + good.length + 1 + (N - good.length - 1) = k + N + 1 by omega] at hdrop
  rw [hloc, ← hdrop, show (k : Int) + 1 + N = (k : Int) + N + 1 by omega] at hbody
  refine ⟨hbody, ?_, fun h => by omega⟩
  intro c rest hrest
  exact awaitingLead_next table input k code s hlead _ hbody (k + N + 1) c rest hrest hrest

set_option maxRecDepth 10000 in
theorem bad_continuation_resumes_witness :
    loopBody exampleTable 0xF0 ⟨[0xC3, 0x41, 0x42, 0x43], 0, [], []⟩ =
      (true, { input := List.drop (0 + 3 + 1) [0xF0, 0xC3, 0x41, 0x42, 0x43],
               location := ((0 : Nat) : Int) + (3 : Nat) + 1,
               out := [] ++ [Event.invalidByte (0x41 : Fin 256).val
                 (((0 : Nat) : Int) + 1 + [(0xC3 : Fin 256)].length)],
               lookups := [] }) ∧
    (∀ (c : Fin 256) (rest : List (Fin 256)),
      List.drop (0 + 3 + 1) [0xF0, 0xC3, 0x41, 0x42, 0x43] = c :: rest →
      AwaitingLead exampleTable [0xF0, 0xC3, 0x41, 0x42, 0x43] (0 + 3 + 1) c.val
        { input := rest, location := ((0 : Nat) : Int) + (3 : Nat) + 1,
          out := [] ++ [Event.invalidByte (0x41 : Fin 256).val
            (((0 : Nat) : Int) + 1 + [(0xC3 : Fin 256)].length)],
          lookups := [] }) ∧
    ([(0xC3 : Fin 256)].length + 1 = 3 →
      0 + 3 + 1 = (0 + 1 + [(0xC3 : Fin 256)].length) + 1) :=
  bad_continuation_resumes exampleTable [0xF0, 0xC3, 0x41, 0x42, 0x43] 0 0xF0
    ⟨[0xC3, 0x41, 0x42, 0x43], 0, [], []⟩ ⟨0, 0xF0, rfl, rfl, rfl⟩ 3 (by decide)
    0xF0 [0xC3] 0x41 [0x42, 0x43] (by decide) (by decide) (by decide) (by decide)

/-- C7, the claim as stated fails: the byte `0xF8`, a reserved pattern, awaited as
a lead byte at offset 0 is not reported as "Invalid byte"; it is taken as a
four-byte lead, three more bytes are read and the value `0x200000` is looked
up. -/
theorem reserved_lead_taken_as_four_byte :
    AwaitingLead exampleTable [0xF8, 0x80, 0x80, 0x80] 0 0xF8 ⟨[0x80, 0x80, 0x80], 0, [], []⟩ ∧
    (classify 0xF8).continuationBytes = some 3 ∧
    loopBody exampleTable 0xF8 ⟨[0x80, 0x80, 0x80], 0, [], []⟩ =
      (true, ⟨[], 4, [Event.unknownCode 0x200000 0], [0x200000]⟩) ∧
    loopBody exampleTable 0xF8 ⟨[0x80, 0x80, 0x80], 0, [], []⟩ ≠
      (true, ⟨[0x80, 0x80, 0x80], 1, [Event.invalidByte 0xF8 0], []⟩) :=
  ⟨⟨0, 0xF8, rfl, rfl, rfl⟩, by decide, by decide, by decide⟩

/-- C7, amended: a byte awaited as a lead byte announces 0 continuation bytes
iff it is in `0x00 .. 0x7F`, 1 iff in `0xC0 .. 0xDF`, 2 iff in `0xE0 .. 0xEF`,
3 iff in `0xF0 .. 0xFF`, and none iff in `0x80 .. 0xBF`; a byte in `0x80 .. 0xBF`
is reported at once as "Invalid byte" at its own offset, with exactly one byte
consumed and no continuation byte read. -/
theorem lead_byte_classes (table : List CodePoint) (input : List (Fin 256))
    (k : Nat) (code : Nat) (s : Io) (hlead : AwaitingLead table input k code s) :
    ((classify code).continuationBytes = some 0 ↔ code ≤ 0x7F) ∧
    ((classify code).continuationBytes = some 1 ↔ 0xC0 ≤ code ∧ code ≤ 0xDF) ∧
    ((classify code).continuationBytes = some 2 ↔ 0xE0 ≤ code ∧ code ≤ 0xEF) ∧
    ((classify code).continuationBytes = some 3 ↔ 0xF0 ≤ code ∧ code ≤ 0xFF) ∧
    ((classify code).continuationBytes = none ↔ 0x80 ≤ code ∧ code ≤ 0xBF) ∧
    (0x80 ≤ code ∧ code ≤ 0xBF →
      loopBody table code s =
        (true, { input := input.drop (k + 1), location := (k : Int) + 1,
                 out := s.out ++ [Event.invalidByte code k], lookups := s.lookups })) := by
  have hloc := awaitingLead_location table input k code s hlead
  have hin := awaitingLead_unread table input k code s hlead
  have hlt := awaitingLead_lt table input k code s hlead
  have hclass := classify_byte code hlt
  refine ⟨?_, ?_, ?_, ?_, ?_, ?_⟩
  · rw [hclass]; split_ifs <;> simp [LeadClass.continuationBytes] <;> omega
  · rw [hclass]; split_ifs <;> simp [LeadClass.continuationBytes] <;> omega
  · rw [hclass]; split_ifs <;> simp [LeadClass.continuationBytes] <;> omega
  · rw [hclass]; split_ifs <;> simp [LeadClass.continuationBytes] <;> omega
  · rw [hclass]; split_ifs <;> simp [LeadClass.continuationBytes] <;> omega
  · intro hrange
    have hinv : classify code = LeadClass.invalid := by
      rw [hclass]
      simp only [show ¬ (0xF0 ≤ code) by omega, show ¬ (0xE0 ≤ code) by omega,
        show ¬ (0xC0 ≤ code) by omega, show ¬ (code < 0x80) by omega, if_false]
    simp only [loopBody, hinv, Io.incr, Io.emit, hloc, hin]

theorem lead_byte_classes_witness :
    ((classify 0x80).continuationBytes = some 0 ↔ 0x80 ≤ 0x7F) ∧
    ((classify 0x80).continuationBytes = some 1 ↔ 0xC0 ≤ 0x80 ∧ 0x80 ≤ 0xDF) ∧
    ((classify 0x80).continuationBytes = some 2 ↔ 0xE0 ≤ 0x80 ∧ 0x80 ≤ 0xEF) ∧
    ((classify 0x80).continuationBytes = some 3 ↔ 0xF0 ≤ 0x80 ∧ 0x80 ≤ 0xFF) ∧
    ((classify 0x80).continuationBytes = none ↔ 0x80 ≤ 0x80 ∧ 0x80 ≤ 0xBF) ∧
    (0x80 ≤ 0x80 ∧ 0x80 ≤ 0xBF →
      loopBody exampleTable 0x80 ⟨[0x41], 0, [], []⟩ =
        (true, { input := List.drop (0 + 1) [0x80, 0x41], location := ((0 : Nat) : Int) + 1,
                 out := [] ++ [Event.invalidByte 0x80 ((0 : Nat) : Int)], lookups := [] })) :=
  lead_byte_classes exampleTable [0x80, 0x41] 0 0x80 ⟨[0x41], 0, [], []⟩
    ⟨0, 0x80, rfl, rfl, rfl⟩

/-- C8, the claim as stated fails: the input `0xE0 0x41` ends with a lead byte
announcing two continuation bytes followed by a single byte, and the run
writes no "Incomplete code" at all: it reports the byte `0x41` as "Invalid
byte" and ends. -/
theorem truncated_after_bad_byte_no_incomplete :
    AwaitingLead exampleTable [0xE0, 0x41] 0 0xE0 ⟨[0x41], 0, [], []⟩ ∧
    (classify 0xE0).continuationBytes = some 2 ∧
    main exampleTable [0xE0, 0x41] = some ⟨[], 3, [Event.invalidByte 0x41 1], []⟩ :=
  ⟨⟨0, 0xE0, rfl, rfl, rfl⟩, by decide, by decide⟩

/-- C8, amended: when the input ends with a lead byte, awaited at offset `k` and
announcing `N` continuation bytes, followed by fewer than `N` further bytes,
each of which has its top bit set (`0x80 .. 0xFF`), the run writes exactly one
"Incomplete code", its offset is `k`, and it is the last event of the run. -/
theorem truncated_sequence_incomplete (table : List CodePoint) (input : List (Fin 256))
    (k : Nat) (code : Nat) (s : Io) (hlead : AwaitingLead table input k code s)
    (N : Nat) (hN : (classify code).continuationBytes = some N)
    (hshort : (input.drop (k + 1)).length < N)
    (hcont : ∀ c ∈ input.drop (k + 1), 0x80 ≤ c.val) :
    ∃ final : Io,
      main table input = some final ∧
      final.out = s.out ++ [Event.incompleteCode k] ∧
      ∀ off : Int, Event.incompleteCode off ∉ s.out := by
  have hloc := awaitingLead_location table input k code s hlead
  have hin := awaitingLead_unread table input k code s hlead
  have hclean : ∀ off : Int, Event.incompleteCode off ∉ s.out := by
    obtain ⟨n, _, hhead, _, _⟩ := hlead
    exact loopHead_no_incomplete table input n code s hhead
  rw [← hin] at hshort hcont
  have hbody : ∃ s2 : Io, loopBody table code s = (false, s2) ∧
      s2.out = s.out ++ [Event.incompleteCode s.location] := by
    cases hc : classify code <;>
      simp only [hc, LeadClass.continuationBytes, Option.some.injEq] at hN
    · subst hN
      simp only [loopBody, hc]
      rcases hs : s.input with _ | ⟨c1, _ | ⟨c2, _ | ⟨c3, rest⟩⟩⟩
      · exact ⟨_, fourBytes_eof1 table code s hs, rfl⟩
      · exact ⟨_, fourBytes_eof2 table code s c1 hs (hcont c1 (by simp [hs])), rfl⟩
      · exact ⟨_, fourBytes_eof3 table code s c1 c2 hs (hcont c1 (by simp [hs]))
          (hcont c2 (by simp [hs])), rfl⟩
      · rw [hs] at hshort
        simp only [List.length_cons] at hshort
        omega
    · subst hN
      simp only [loopBody, hc]
      rcases hs : s.input with _ | ⟨c1, _ | ⟨c2, rest⟩⟩
      · exact ⟨_, threeBytes_eof1 table code s hs, rfl⟩
      · exact ⟨_, threeBytes_eof2 table code s c1 hs (hcont c1 (by simp [hs])), rfl⟩
      · rw [hs] at hshort
        simp only [List.length_cons] at hshort
        omega
    · subst hN
      simp only [loopBody, hc]
      rcases hs : s.input with _ | ⟨c1, rest⟩
      · exact ⟨_, twoBytes_eof table code s hs, rfl⟩
      · rw [hs] at hshort
        simp only [List.length_cons] at hshort
        omega
    · subst hN
      omega
    · cases hN
  obtain ⟨s2, hs2, hout⟩ := hbody
  rw [hloc] at hout
  exact ⟨s2, main_of_break table input k code s hlead s2 hs2, hout, hclean⟩

set_option maxRecDepth 10000 in
theorem truncated_sequence_incomplete_witness :
    ∃ final : Io,
      main exampleTable [0x41, 0xF0, 0x90, 0x80] = some final ∧
      final.out = [Event.name "LATIN CAPITAL LETTER A"] ++ [Event.incompleteCode ((1 : Nat) : Int)] ∧
      ∀ off : Int, Event.incompleteCode off ∉ [Event.name "LATIN CAPITAL LETTER A"] :=
  truncated_sequence_incomplete exampleTable [0x41, 0xF0, 0x90, 0x80] 1 0xF0
    ⟨[0x90, 0x80], 1, [Event.name "LATIN CAPITAL LETTER A"], [0x41]⟩
    ⟨1, 0xF0, rfl, rfl, rfl⟩ 3 (by decide) (by decide) (by decide)

/-- C9: a byte `0x80 .. 0xBF` awaited as a lead byte at offset `k` is reported as
"Invalid byte" with its value and offset `k`, exactly that byte is consumed,
and the byte at offset `k + 1` (when there is one) is the next one awaited as
a lead byte, with `location` equal to `k + 1`. -/
theorem stray_continuation_skipped (table : List CodePoint) (input : List (Fin 256))
    (k : Nat) (code : Nat) (s : Io) (hlead : AwaitingLead table input k code s)
    (hlow : 0x80 ≤ code) (hhigh : code ≤ 0xBF) :
    loopBody table code s =
      (true, { input := input.drop (k + 1), location := (k : Int) + 1,
               out := s.out ++ [Event.invalidByte code k], lookups := s.lookups }) ∧
    ∀ (c : Fin 256) (rest : List (Fin 256)), input.drop (k + 1) = c :: rest →
      AwaitingLead table input (k + 1) c.val
        { input := rest, location := (k : Int) + 1,
          out := s.out ++ [Event.invalidByte code k], lookups := s.lookups } := by
  have hloc := awaitingLead_location table input k code s hlead
  have hin := awaitingLead_unread table input k code s hlead
  have hlt := awaitingLead_lt table input k code s hlead
  have hclass : classify code = LeadClass.invalid := by
    rw [classify_byte code hlt]
    simp only [show ¬ (0xF0 ≤ code) by omega, show ¬ (0xE0 ≤ code) by omega,
      show ¬ (0xC0 ≤ code) by omega, show ¬ (code < 0x80) by omega, if_false]
  have hbody : loopBody table code s =
      (true, { input := input.drop (k + 1), location := (k : Int) + 1,
               out := s.out ++ [Event.invalidByte code k], lookups := s.lookups }) := by
    simp only [loopBody, hclass, Io.incr, Io.emit, hloc, hin]
  refine ⟨hbody, ?_⟩
  intro c rest hrest
  exact awaitingLead_next table input k code s hlead _ hbody (k + 1) c rest hrest hrest

theorem stray_continuation_skipped_witness :
    loopBody exampleTable 0x80 ⟨[0x41], 0, [], []⟩ =
      (true, { input := List.drop (0 + 1) [0x80, 0x41], location := ((0 : Nat) : Int) + 1,
               out := [] ++ [Event.invalidByte 0x80 ((0 : Nat) : Int)], lookups := [] }) ∧
    ∀ (c : Fin 256) (rest : List (Fin 256)), List.drop (0 + 1) [0x80, 0x41] = c :: rest →
      AwaitingLead exampleTable [0x80, 0x41] (0 + 1) c.val
        { input := rest, location := ((0 : Nat) : Int) + 1,
          out := [] ++ [Event.invalidByte 0x80 ((0 : Nat) : Int)], lookups := [] } :=
  stray_continuation_skipped exampleTable [0x80, 0x41] 0 0x80 ⟨[0x41], 0, [], []⟩
    ⟨0, 0x80, rfl, rfl, rfl⟩ (by decide) (by decide)

/-- C10: a byte `0x00 .. 0x7F` awaited as a lead byte at offset `k` is looked up
as it is, on a table sorted ascending with distinct codes: exactly one
byte is consumed, `reportTable` is called once with the byte, and the one line
written is the description of the entry with that code or, when there is none,
"Unknown code" with the byte and offset `k`. -/
theorem ascii_byte_looked_up (table : List CodePoint)
    (hsorted : table.Pairwise (fun p q => p.code ≤ q.code))
    (hdistinct : (table.map CodePoint.code).Nodup) (hne : table ≠ [])
    (input : List (Fin 256)) (k : Nat) (code : Nat) (s : Io)
    (hlead : AwaitingLead table input k code s) (hascii : code ≤ 0x7F) :
    ∃ ev : Event,
      loopBody table code s =
        (true, { input := input.drop (k + 1), location := (k : Int) + 1, out := s.out ++ [ev],
                 lookups := s.lookups ++ [code] }) ∧
      ((∃ p ∈ table, p.code = code ∧ ev = Event.name p.description) ∨
       ((∀ p ∈ table, p.code ≠ code) ∧ ev = Event.unknownCode code k)) := by
  have hloc := awaitingLead_location table input k code s hlead
  have hin := awaitingLead_unread table input k code s hlead
  have hlt := awaitingLead_lt table input k code s hlead
  have hclass : classify code = LeadClass.oneByte := by
    rw [classify_byte code hlt]
    simp only [show ¬ (0xF0 ≤ code) by omega, show ¬ (0xE0 ≤ code) by omega,
      show ¬ (0xC0 ≤ code) by omega, show code < 0x80 by omega, if_false, if_true]
  obtain ⟨ev, hev, hcases⟩ := lookupOrUnknown_sorted table hsorted hdistinct hne code s.location s
  rw [hloc] at hev hcases
  refine ⟨ev, ?_, hcases⟩
  simp only [loopBody, hclass, Io.incr, hloc, hev, hin]

theorem ascii_byte_looked_up_witness :
    ∃ ev : Event,
      loopBody exampleTable 0x41 ⟨[0xC3, 0xA9], 0, [], []⟩ =
        (true, { input := List.drop (0 + 1) [0x41, 0xC3, 0xA9], location := ((0 : Nat) : Int) + 1,
                 out := [] ++ [ev], lookups := [] ++ [0x41] }) ∧
      ((∃ p ∈ exampleTable, p.code = 0x41 ∧ ev = Event.name p.description) ∨
       ((∀ p ∈ exampleTable, p.code ≠ 0x41) ∧ ev = Event.unknownCode 0x41 ((0 : Nat) : Int))) :=
  ascii_byte_looked_up exampleTable (by decide) (by decide) (by decide)
    [0x41, 0xC3, 0xA9] 0 0x41 ⟨[0xC3, 0xA9], 0, [], []⟩
    ⟨0, 0x41, rfl, rfl, rfl⟩ (by decide)

/-- C11: every diagnostic offset is byte-accurate.  Each time the decoder
classifies a lead byte, at whatever offset `k` and after whatever errors and
discarded bytes, `location` equals `k`, and every line the pass writes is
accurate for `k`: "Invalid encoding", "Unknown code" and "Incomplete code"
carry `k`, the index of the lead byte, and "Invalid byte" carries the index at
which the input holds the byte reported.  Hence every line of the whole run
is accurate for the lead position it was written for. -/
theorem diagnostic_offsets_byte_accurate (table : List CodePoint) (input : List (Fin 256))
    (k : Nat) (code : Nat) (s : Io) (hlead : AwaitingLead table input k code s) :
    s.location = (k : Int) ∧
    (input[k]?).map Fin.val = some code ∧
    (∃ evs : List Event, (loopBody table code s).2.out = s.out ++ evs ∧
      ∀ e ∈ evs, e.accurateAt input k) ∧
    (∀ final : Io, main table input = some final →
      ∀ e ∈ final.out, ∃ (k2 code2 : Nat) (s2 : Io),
        AwaitingLead table input k2 code2 s2 ∧ e.accurateAt input k2) := by
  have hloc := awaitingLead_location table input k code s hlead
  obtain ⟨n, b, hhead, hcode, hdrop⟩ := hlead
  refine ⟨hloc, ?_, loopBody_accurate table input k code s hloc b hcode hdrop,
    fun final hrun => main_accurate table input final hrun⟩
  have hbyte := byte_at_offset input k _ hdrop 0
  rw [Nat.add_zero] at hbyte
  rw [hbyte, hcode]
  simp

theorem diagnostic_offsets_byte_accurate_witness :
    (⟨[0x41], 3, [Event.invalidByte 0x41 1], []⟩ : Io).location = ((3 : Nat) : Int) ∧
    (([0xE0, 0x41, 0x42, 0xC3, 0x41] : List (Fin 256))[3]?).map Fin.val = some 0xC3 ∧
    (∃ evs : List Event,
      (loopBody exampleTable 0xC3 ⟨[0x41], 3, [Event.invalidByte 0x41 1], []⟩).2.out =
        (⟨[0x41], 3, [Event.invalidByte 0x41 1], []⟩ : Io).out ++ evs ∧
      ∀ e ∈ evs, e.accurateAt [0xE0, 0x41, 0x42, 0xC3, 0x41] 3) ∧
    (∀ final : Io, main exampleTable [0xE0, 0x41, 0x42, 0xC3, 0x41] = some final →
      ∀ e ∈ final.out, ∃ (k2 code2 : Nat) (s2 : Io),
        AwaitingLead exampleTable [0xE0, 0x41, 0x42, 0xC3, 0x41] k2 code2 s2 ∧
        e.accurateAt [0xE0, 0x41, 0x42, 0xC3, 0x41] k2) :=
  diagnostic_offsets_byte_accurate exampleTable [0xE0, 0x41, 0x42, 0xC3, 0x41] 3 0xC3
    ⟨[0x41], 3, [Event.invalidByte 0x41 1], []⟩ ⟨1, 0xC3, rfl, rfl, rfl⟩

/-- C12: lookup does not depend on insertion order.  For a non-empty list of
code points with pairwise distinct codes and any permutation of it, the tables
`loadTable` builds from the two (append every pair, then `qsort` with
`comparator`) give the same `reportTable` result for every code, and for every
pair of the list that result is found, with exactly its name. -/
theorem lookup_independent_of_insertion_order (qsort : List CodePoint → List CodePoint)
    (hqsort : SortsByComparator qsort) (pairs permuted : List CodePoint) (hne : pairs ≠ [])
    (hdistinct : (pairs.map CodePoint.code).Nodup) (hperm : permuted.Perm pairs) :
    (∀ c : Nat, reportTable (loadTable qsort pairs).codepoints c =
      reportTable (loadTable qsort permuted).codepoints c) ∧
    ∀ p ∈ pairs,
      reportTable (loadTable qsort pairs).codepoints p.code = LookupResult.found p.description ∧
      reportTable (loadTable qsort permuted).codepoints p.code =
        LookupResult.found p.description := by
  have hne2 : permuted ≠ [] := by
    intro hnil
    rw [hnil] at hperm
    exact hne (List.Perm.nil_eq hperm).symm
  have hdistinct2 : (permuted.map CodePoint.code).Nodup :=
    ((hperm.map CodePoint.code).nodup_iff).mpr hdistinct
  constructor
  · intro c
    obtain ⟨hfound1, habsent1⟩ := reportTable_loadTable qsort hqsort pairs hne hdistinct c
    obtain ⟨hfound2, habsent2⟩ := reportTable_loadTable qsort hqsort permuted hne2 hdistinct2 c
    by_cases hc : ∃ p ∈ pairs, p.code = c
    · obtain ⟨p, hp, hpc⟩ := hc
      rw [hfound1 p hp hpc, hfound2 p (hperm.mem_iff.mpr hp) hpc]
    · have hno : ∀ p ∈ pairs, p.code ≠ c := fun p hp hpc => hc ⟨p, hp, hpc⟩
      rw [habsent1 hno, habsent2 (fun p hp => hno p (hperm.mem_iff.mp hp))]
  · intro p hp
    exact ⟨(reportTable_loadTable qsort hqsort pairs hne hdistinct p.code).1 p hp rfl,
      (reportTable_loadTable qsort hqsort permuted hne2 hdistinct2 p.code).1 p
        (hperm.mem_iff.mpr hp) rfl⟩

theorem lookup_independent_of_insertion_order_witness :
    (∀ c : Nat,
      reportTable (loadTable insertionQsort
        [⟨0xE9, "LATIN SMALL LETTER E WITH ACUTE"⟩, ⟨0x41, "LATIN CAPITAL LETTER A"⟩]).codepoints c =
      reportTable (loadTable insertionQsort exampleTable).codepoints c) ∧
    ∀ p ∈ [(⟨0xE9, "LATIN SMALL LETTER E WITH ACUTE"⟩ : CodePoint),
        ⟨0x41, "LATIN CAPITAL LETTER A"⟩],
      reportTable (loadTable insertionQsort
        [⟨0xE9, "LATIN SMALL LETTER E WITH ACUTE"⟩, ⟨0x41, "LATIN CAPITAL LETTER A"⟩]).codepoints
        p.code = LookupResult.found p.description ∧
      reportTable (loadTable insertionQsort exampleTable).codepoints p.code =
        LookupResult.found p.description :=
  lookup_independent_of_insertion_order insertionQsort insertionQsort_sorts
    [⟨0xE9, "LATIN SMALL LETTER E WITH ACUTE"⟩, ⟨0x41, "LATIN CAPITAL LETTER A"⟩] exampleTable
    (by decide) (by decide) (by decide)

/-- C13: the table `loadTable` builds from any list of parsed code points has
the length of the list, is a permutation of it, and has its codes in
non-decreasing order; `comparator` returns -1, 0 or 1 exactly as the first
code is less than, equal to or greater than the second. -/
theorem loadTable_sorted_permutation (qsort : List CodePoint → List CodePoint)
    (hqsort : SortsByComparator qsort) (parsed : List CodePoint) :
    (loadTable qsort parsed).length = parsed.length ∧
    (loadTable qsort parsed).codepoints.length = parsed.length ∧
    (loadTable qsort parsed).codepoints.Perm parsed ∧
    (loadTable qsort parsed).codepoints.Pairwise (fun p q => p.code ≤ q.code) ∧
    ∀ p q : CodePoint,
      (comparator p q = -1 ↔ p.code < q.code) ∧
      (comparator p q = 0 ↔ p.code = q.code) ∧
      (comparator p q = 1 ↔ p.code > q.code) := by
  have hperm := loadTable_perm qsort hqsort parsed
  refine ⟨?_, hperm.length_eq, hperm, loadTable_sorted qsort hqsort parsed, ?_⟩
  · simp only [loadTable, loadTableLoop_length, emptyList, Nat.zero_add]
  · intro p q
    unfold comparator
    simp only
    refine ⟨?_, ?_, ?_⟩ <;> split_ifs <;> constructor <;> intro h <;> first | omega | exact h.elim

theorem loadTable_sorted_permutation_witness :
    (loadTable insertionQsort
      [⟨0xE9, "LATIN SMALL LETTER E WITH ACUTE"⟩, ⟨0x41, "LATIN CAPITAL LETTER A"⟩]).codepoints
      = exampleTable ∧
    ((loadTable insertionQsort exampleTable).length = exampleTable.length ∧
    (loadTable insertionQsort exampleTable).codepoints.length = exampleTable.length ∧
    (loadTable insertionQsort exampleTable).codepoints.Perm exampleTable ∧
    (loadTable insertionQsort exampleTable).codepoints.Pairwise (fun p q => p.code ≤ q.code) ∧
    ∀ p q : CodePoint,
      (comparator p q = -1 ↔ p.code < q.code) ∧
      (comparator p q = 0 ↔ p.code = q.code) ∧
      (comparator p q = 1 ↔ p.code > q.code)) :=
  ⟨by decide, loadTable_sorted_permutation insertionQsort insertionQsort_sorts exampleTable⟩

/-- C14, the claim as stated fails: from the sequence `0xFF 0xBF 0xBF 0xBF` the
decoder reconstructs and looks up `0x3FFFFF`, which is not below `0x200000`
and is not the value made of the low 3 bits of the lead byte and the low 6
bits of the continuation bytes, `0x1FFFFF`: the low 4 bits of the lead byte
are kept. -/
theorem four_byte_value_keeps_four_lead_bits :
    AwaitingLead exampleTable [0xFF, 0xBF, 0xBF, 0xBF] 0 0xFF ⟨[0xBF, 0xBF, 0xBF], 0, [], []⟩ ∧
    loopBody exampleTable 0xFF ⟨[0xBF, 0xBF, 0xBF], 0, [], []⟩ =
      (true, ⟨[], 4, [Event.unknownCode 0x3FFFFF 0], [0x3FFFFF]⟩) ∧
    reconstructed 0xFF [0xBF, 0xBF, 0xBF] = 0x1FFFFF ∧
    ¬ ((0x3FFFFF : Nat) < 0x200000) :=
  ⟨⟨0, 0xFF, rfl, rfl, rfl⟩, by decide, by decide, by decide⟩

/-- C14, amended: for every multi-byte sequence at an offset `k` where the
decoder is awaiting a lead byte, with all its announced continuation bytes
present and accepted, the value the decoder reconstructs (and reports as
"Invalid encoding" or looks up) is `decoded`: the low 5 bits of the lead byte
(two-byte) or its low 4 bits (three-byte and four-byte), followed, most
significant first, by the low 6 bits of each continuation byte.  Every such
value is below `0x400000`; when the lead byte is at most `0xF7` it is the value
of the specification (low 3 bits of a four-byte lead) and is below `0x200000`. -/
theorem value_reconstructed_from_significant_bits (table : List CodePoint)
    (input : List (Fin 256)) (k : Nat) (code : Nat) (s : Io)
    (hlead : AwaitingLead table input k code s)
    (lead : Fin 256) (conts tail : List (Fin 256))
    (hbytes : input.drop k = lead :: conts ++ tail)
    (hN : (classify code).continuationBytes = some conts.length) (hpos : 1 ≤ conts.length)
    (hacc : ∀ c ∈ conts, 0x80 ≤ c.val) :
    loopBody table code s =
      (if decoded lead.val conts < shorterLimit conts.length then
        (true, { input := tail, location := (k : Int) + 1 + conts.length,
                 out := s.out ++ [Event.invalidEncoding (decoded lead.val conts) k],
                 lookups := s.lookups })
      else
        lookupOrUnknown table (decoded lead.val conts) k
          { input := tail, location := (k : Int) + 1 + conts.length, out := s.out,
            lookups := s.lookups }) ∧
    decoded lead.val conts < 0x400000 ∧
    (lead.val ≤ 0xF7 →
      decoded lead.val conts = reconstructed lead conts ∧ decoded lead.val conts < 0x200000) := by
  have hloc := awaitingLead_location table input k code s hlead
  have hlt := awaitingLead_lt table input k code s hlead
  obtain ⟨hcode, hin⟩ := awaitingLead_bytes table input k code s hlead _ _ hbytes
  have hbody := decoded_body table code s conts tail hN hpos hin hacc
  rw [hloc] at hbody
  subst hcode
  refine ⟨hbody, ?_, ?_⟩
  · rcases conts with _ | ⟨c1, _ | ⟨c2, _ | ⟨c3, _ | ⟨c4, rest⟩⟩⟩⟩
    · simp at hpos
    · simp only [decoded, List.length_singleton, if_true, List.foldl_cons, List.foldl_nil]
      omega
    · simp [decoded]
      omega
    · simp [decoded]
      omega
    · exfalso
      have hclass := classify_byte _ hlt
      rw [hclass] at hN
      simp only [List.length_cons] at hN
      split_ifs at hN <;> simp [LeadClass.continuationBytes] at hN
  · intro hle
    have hclass := classify_byte _ hlt
    rw [hclass] at hN
    rcases conts with _ | ⟨c1, _ | ⟨c2, _ | ⟨c3, _ | ⟨c4, rest⟩⟩⟩⟩
    · simp at hpos
    · simp [decoded, reconstructed]
      omega
    · simp [decoded, reconstructed]
      omega
    · have hfour : 0xF0 ≤ lead.val := by
        by_contra hcon
        simp only [List.length_cons, List.length_nil] at hN
        split_ifs at hN <;> simp [LeadClass.continuationBytes] at hN
      simp [decoded, reconstructed]
      have hmod : lead.val % 16 = lead.val % 8 := by omega
      rw [hmod]
      omega
    · exfalso
      simp only [List.length_cons] at hN
      split_ifs at hN <;> simp [LeadClass.continuationBytes] at hN

set_option maxRecDepth 10000 in
theorem value_reconstructed_from_significant_bits_witness :
    loopBody exampleTable 0xC3 ⟨[0xA9], 1, [Event.name "LATIN CAPITAL LETTER A"], [0x41]⟩ =
      (if decoded (0xC3 : Fin 256).val [0xA9] < shorterLimit [(0xA9 : Fin 256)].length then
        (true, { input := [], location := ((1 : Nat) : Int) + 1 + [(0xA9 : Fin 256)].length,
                 out := [Event.name "LATIN CAPITAL LETTER A"] ++
                   [Event.invalidEncoding (decoded (0xC3 : Fin 256).val [0xA9]) ((1 : Nat) : Int)],
                 lookups := [0x41] })
      else
        lookupOrUnknown exampleTable (decoded (0xC3 : Fin 256).val [0xA9]) ((1 : Nat) : Int)
          { input := [], location := ((1 : Nat) : Int) + 1 + [(0xA9 : Fin 256)].length,
            out := [Event.name "LATIN CAPITAL LETTER A"], lookups := [0x41] }) ∧
    decoded (0xC3 : Fin 256).val [0xA9] < 0x400000 ∧
    ((0xC3 : Fin 256).val ≤ 0xF7 →
      decoded (0xC3 : Fin 256).val [0xA9] = reconstructed 0xC3 [0xA9] ∧
      decoded (0xC3 : Fin 256).val [0xA9] < 0x200000) :=
  value_reconstructed_from_significant_bits exampleTable [0x41, 0xC3, 0xA9] 1 0xC3
    ⟨[0xA9], 1, [Event.name "LATIN CAPITAL LETTER A"], [0x41]⟩ ⟨1, 0xC3, rfl, rfl, rfl⟩
    0xC3 [0xA9] [] (by decide) (by decide) (by decide) (by decide)

/-- C15: the three overlong checks are exact thresholds: `checkTwoByteEncoding`
is true iff the value is at least `0x80`, `checkThreeByteEncoding` iff at
least `0x800`, `checkFourByteEncoding` iff at least `0x10000`; and the result of
the three- and four-byte checks is that of their first test alone, so the
further tests never change it.  (No shift wraps around: `(h >> n) << n ≤ h`.) -/
theorem overlong_checks_exact_thresholds (h : Nat) :
    (checkTwoByteEncoding h = true ↔ 0x80 ≤ h) ∧
    (checkThreeByteEncoding h = true ↔ 0x800 ≤ h) ∧
    (checkFourByteEncoding h = true ↔ 0x10000 ≤ h) ∧
    checkThreeByteEncoding h =
      decide (¬ ((h >>> SIG_BITS_THREE_BYTES <<< SIG_BITS_THREE_BYTES) ||| EMPTY_BIN = EMPTY_BIN)) ∧
    checkFourByteEncoding h =
      decide (¬ ((h >>> SIG_BITS_FOUR_BYTES <<< SIG_BITS_FOUR_BYTES) ||| EMPTY_BIN = EMPTY_BIN)) ∧
    h >>> SIG_BITS_TWO_BYTES <<< SIG_BITS_TWO_BYTES ≤ h ∧
    h >>> SIG_BITS_THREE_BYTES <<< SIG_BITS_THREE_BYTES ≤ h ∧
    h >>> SIG_BITS_FOUR_BYTES <<< SIG_BITS_FOUR_BYTES ≤ h := by
  refine ⟨?_, ?_, ?_, ?_, ?_, ?_, ?_, ?_⟩
  · rw [checkTwoByteEncoding_eq]; simp
  · rw [checkThreeByteEncoding_eq]; simp
  · rw [checkFourByteEncoding_eq]; simp
  · rw [checkThreeByteEncoding_eq]
    simp only [Nat.shiftRight_eq_div_pow, Nat.shiftLeft_eq, Nat.or_zero]
    by_cases hlow : 0x800 ≤ h
    · have h1 : ¬ (h / 2 ^ 11 * 2 ^ 11 = 0) := by omega
      simp [h1, hlow]
    · have h1 : h / 2 ^ 11 * 2 ^ 11 = 0 := by omega
      simp [h1, hlow]
  · rw [checkFourByteEncoding_eq]
    simp only [Nat.shiftRight_eq_div_pow, Nat.shiftLeft_eq, Nat.or_zero]
    by_cases hlow : 0x10000 ≤ h
    · have h1 : ¬ (h / 2 ^ 16 * 2 ^ 16 = 0) := by omega
      simp [h1, hlow]
    · have h1 : h / 2 ^ 16 * 2 ^ 16 = 0 := by omega
      simp [h1, hlow]
  · rw [Nat.shiftRight_eq_div_pow, Nat.shiftLeft_eq]; exact Nat.div_mul_le_self h _
  · rw [Nat.shiftRight_eq_div_pow, Nat.shiftLeft_eq]; exact Nat.div_mul_le_self h _
  · rw [Nat.shiftRight_eq_div_pow, Nat.shiftLeft_eq]; exact Nat.div_mul_le_self h _

/-- C16: on every table of length at least 1 (sorted or not, with or without
duplicate codes) and for every code, the search of `reportTable` ends with
found or not found: the loop terminates within `length + 1` iterations and
no read of `list->codepoints[list_mid_pt]` is outside `0 .. length - 1` (such
a read would make the result `outOfBounds`).  On the table of length 0 the
first read, at index `(0 + 0) / 2 = 0`, is outside the table. -/
theorem reportTable_total_in_bounds (list : List CodePoint) (hlen : 1 ≤ list.length)
    (code : Nat) :
    ((∃ d : String, reportTable list code = LookupResult.found d) ∨
      reportTable list code = LookupResult.notFound) ∧
    reportTable [] code = LookupResult.outOfBounds := by
  constructor
  · have h := reportTableLoop_fuel list code (list.length + 1) 0 list.length (by omega)
      (Nat.le_refl _) (by omega)
    have hdef : reportTable list code =
        reportTableLoop list code (list.length + 1) 0 list.length ((0 + list.length) / 2) := rfl
    rw [← hdef] at h
    cases hr : reportTable list code with
    | found d => exact Or.inl ⟨d, rfl⟩
    | notFound => exact Or.inr rfl
    | outOfBounds => exact absurd hr h.2
    | diverges => exact absurd hr h.1
  · rfl

theorem reportTable_total_in_bounds_witness :
    ((∃ d : String, reportTable [⟨0x41, "A"⟩, ⟨0x41, "B"⟩, ⟨0x10, "C"⟩] 0x41 = LookupResult.found d) ∨
      reportTable [⟨0x41, "A"⟩, ⟨0x41, "B"⟩, ⟨0x10, "C"⟩] 0x41 = LookupResult.notFound) ∧
    reportTable [] 0x41 = LookupResult.outOfBounds :=
  reportTable_total_in_bounds [⟨0x41, "A"⟩, ⟨0x41, "B"⟩, ⟨0x10, "C"⟩] (by decide) 0x41

/-- C17: the growth policy keeps every append inside the allocated capacity.
After the loop of `loadTable` has appended any list of code points, starting
from length 0 and capacity 5: the length is at most the capacity less one,
the capacity is 5 times a power of two, and the slot the next append writes
(index `length`, after the growth test) is below the capacity then in force.
The capacity is at most `max 5 (2 * length)`, so no `int` overflows while the
table has fewer than `2 ^ 30` entries. -/
theorem growth_keeps_appends_in_capacity (appended : List CodePoint) :
    (loadTableLoop emptyList appended).length = appended.length ∧
    (loadTableLoop emptyList appended).length ≤ (loadTableLoop emptyList appended).capacity - 1 ∧
    (∃ j : Nat, (loadTableLoop emptyList appended).capacity = 5 * 2 ^ j) ∧
    (grow (loadTableLoop emptyList appended)).length <
      (grow (loadTableLoop emptyList appended)).capacity ∧
    (∀ c : CodePoint, loadTableLoop emptyList (appended ++ [c]) =
      store (grow (loadTableLoop emptyList appended)) c) ∧
    (loadTableLoop emptyList appended).capacity ≤
      max 5 (2 * (loadTableLoop emptyList appended).length) := by
  obtain ⟨h1, h2, h3⟩ := loadTableLoop_capacity appended emptyList emptyList_capacity
  refine ⟨?_, by omega, h2, ?_, ?_, h3⟩
  · simp only [loadTableLoop_length, emptyList, Nat.zero_add]
  · unfold grow
    split_ifs
    · show (loadTableLoop emptyList appended).length < (loadTableLoop emptyList appended).capacity * 2
      omega
    · omega
  · intro c
    exact loadTableLoop_append emptyList appended c

end UnUtf8
